import Mathlib

/-!
Verification of the Principia trajectory/flight-plan core against its
specification.

Two parts:

1. `Principia.Geometry`: a shallow embedding of the Grassmann multivector
   arithmetic of `src/Geometry/Grassmann-body.hpp` (coordinatewise `operator+`,
   `operator-`, unary negation) over an arbitrary additive scalar type.

2. `Principia.KSP`: a model of the `FlightPlan` component.  The implementation
   file (`ksp_plugin/flight_plan.cpp`) is not part of the sources; only its
   unit test (`src/ksp_plugin_test/flight_plan_test.cpp`) is.  The definitions
   below are therefore modelled from the specification (spec.md sections 3,
   4.3, 6 and 8), with the behaviour at singular truncation pinned by the
   expectations of `FlightPlanTest`.  The numerical integrator is abstracted
   into a `Scenario` record providing the adaptive-flow reach function and the
   Tsiolkovsky mass-depletion derivation, exactly the two capabilities the
   spec delegates to external collaborators.
-/

namespace Principia

namespace Geometry

/-- Coordinate triple backing rank-1 and rank-2 multivectors (the
`R3Element` of the quantities layer). -/
structure R3Element (α : Type) where
  x : α
  y : α
  z : α
deriving DecidableEq

/-- Componentwise sum of coordinate triples. -/
def R3Element.add [Add α] (l r : R3Element α) : R3Element α :=
  ⟨l.x + r.x, l.y + r.y, l.z + r.z⟩

/-- Componentwise negation of a coordinate triple. -/
def R3Element.neg [Neg α] (r : R3Element α) : R3Element α :=
  ⟨-r.x, -r.y, -r.z⟩

/-- Componentwise difference of coordinate triples. -/
def R3Element.subtract [Sub α] (l r : R3Element α) : R3Element α :=
  ⟨l.x - r.x, l.y - r.y, l.z - r.z⟩

/-- The `Multivector<T, Frame, Rank>` template of `Grassmann-body.hpp`: a typed wrapper
around a coordinate triple.  `Frame` and `rank` are phantom parameters, as in
the C++ template. -/
structure Multivector (α : Type) (Frame : Type) (rank : ℕ) where
  coordinates : R3Element α
deriving DecidableEq

/-- Binary `operator+` (Grassmann-body.hpp, lines 57-63): componentwise sum
of the coordinates. -/
def Multivector.add [Add α] (l r : Multivector α Frame rank) :
    Multivector α Frame rank :=
  ⟨l.coordinates.add r.coordinates⟩

/-- Binary `operator-` (Grassmann-body.hpp, lines 64-69), transcribed exactly
as written: the source returns `left.coordinates + left.coordinates`, not the
componentwise difference of left and right. -/
def Multivector.sub [Add α] (l _r : Multivector α Frame rank) :
    Multivector α Frame rank :=
  ⟨l.coordinates.add l.coordinates⟩

/-- Unary `operator-` (Grassmann-body.hpp, lines 52-56): componentwise
negation. -/
def Multivector.negate [Neg α] (r : Multivector α Frame rank) :
    Multivector α Frame rank :=
  ⟨r.coordinates.neg⟩

/-- Compound `operator-=` (Grassmann-body.hpp, lines 114-118): this one does
subtract the right operand componentwise, confirming the intended meaning of
binary subtraction. -/
def Multivector.subAssign [Sub α] (l r : Multivector α Frame rank) :
    Multivector α Frame rank :=
  ⟨l.coordinates.subtract r.coordinates⟩

end Geometry

namespace KSP

variable {T : Type} [LinearOrderedField T]

/-- Modelled from the spec: a Maneuver/Burn (spec.md section 3) — thrust
magnitude, specific impulse, an initial time, and a frame-relative
velocity-change magnitude `Δv` (signed along the Frenet tangent, as built by
`MakeTangentBurn` in the test); the local reference frame is a phantom of the
model.  `flight_plan.hpp` itself is not among the sources. -/
structure Burn (T : Type) where
  thrust : T
  specificImpulse : T
  initialTime : T
  Δv : T
deriving DecidableEq

/-- Modelled from the spec: a committed manœuvre — its burn, the mass at
ignition, and the duration and final mass derived from the Tsiolkovsky
relation (spec.md section 3). -/
structure Manoeuvre (T : Type) where
  burn : Burn T
  initialMass : T
  duration : T
  finalMass : T
deriving DecidableEq

/-- The manœuvre's nominal end: its burn's initial time plus its derived
duration. -/
def Manoeuvre.finalTime (m : Manoeuvre T) : T :=
  m.burn.initialTime + m.duration

/-- Modelled from the spec: one coast or burn segment of the plan, summarised
by the times of its first and last samples (the Timeline Container content is
abstracted to its time span; a segment whose flow appended nothing has
`stop = start` and holds exactly its initial sample). -/
structure Segment (T : Type) where
  start : T
  stop : T
  isBurn : Bool
deriving DecidableEq

/-- Modelled from the spec: the two capabilities the Flight Plan needs from
the Gravity Field and the manœuvre model (spec.md sections 4.1 and 3):
`reach bs t1 t2` is the time attained by adaptive-step flow of the trajectory
determined by the burns `bs` executed so far, from `t1` toward the target
`t2`, together with a flag recording whether the flow was truncated (by a
singular / non-finite acceleration) rather than reaching the target;
`massDepletion m0 b` is the (duration, final mass) pair the Tsiolkovsky
relation derives for burn `b` ignited at mass `m0`. -/
structure Scenario (T : Type) where
  reach : List (Burn T) → T → T → T × Bool
  massDepletion : T → Burn T → T × T

/-- Physical sanity of a scenario: durations are nonnegative and flow neither
moves backwards nor overshoots its target. -/
def Scenario.Sane (S : Scenario T) : Prop :=
  (∀ m0 b, 0 ≤ (S.massDepletion m0 b).1) ∧
  (∀ bs t1 t2, t1 ≤ t2 →
    t1 ≤ (S.reach bs t1 t2).1 ∧ (S.reach bs t1 t2).1 ≤ t2)

/-- Modelled from the spec: the Flight Plan state (spec.md section 3) — an
initial mass, initial time, final time, the ordered list of committed
manœuvres, and the alternating coast/burn segment list. -/
@[ext]
structure FlightPlan (T : Type) where
  initialMass : T
  initialTime : T
  finalTime : T
  manoeuvres : List (Manoeuvre T)
  segments : List (Segment T)
deriving DecidableEq

/-- The burns of the committed manœuvres, in order. -/
def FlightPlan.burnList (p : FlightPlan T) : List (Burn T) :=
  p.manoeuvres.map fun m => m.burn

/-- Nominal end of the last committed burn, or the plan's initial time when
there is none: the baseline against which a new burn's ordering is checked. -/
def FlightPlan.lastBurnEnd (p : FlightPlan T) : T :=
  match p.manoeuvres.getLast? with
  | some m => m.finalTime
  | none => p.initialTime

/-- The plan's current mass: the final mass of the last committed manœuvre,
or the initial mass when there is none. -/
def FlightPlan.currentMass (p : FlightPlan T) : T :=
  match p.manoeuvres.getLast? with
  | some m => m.finalMass
  | none => p.initialMass

/-- The last sample time of the plan's segment list (its initial time when
the list is empty): where the next flowed segment starts. -/
def FlightPlan.lastStop (p : FlightPlan T) : T :=
  match p.segments.getLast? with
  | some s => s.stop
  | none => p.initialTime

/-- Append the (possibly truncated) trailing coast: flow from the current
last stop toward `finalTime` along the committed burns. -/
def FlightPlan.addCoast (S : Scenario T) (p : FlightPlan T) : FlightPlan T :=
  { p with
    segments := p.segments ++
      [⟨p.lastStop, (S.reach p.burnList p.lastStop p.finalTime).1, false⟩] }

/-- Where the trailing coast segment starts: the last sample time of the
segment preceding it (the computed end of the last burn segment), or the
plan's initial time when the trailing coast is the only segment. -/
def FlightPlan.coastStart (p : FlightPlan T) : T :=
  match p.segments.dropLast.getLast? with
  | some s => s.stop
  | none => p.initialTime

/-- Modelled from the spec: the initial state of a Flight Plan (spec.md
section 4.3) — a single coast segment flowed from `initialTime` toward
`finalTime` (kept truncated if the flow is singular), and zero burns. -/
def initialPlan (S : Scenario T) (m0 t0 tf : T) : FlightPlan T :=
  FlightPlan.addCoast S ⟨m0, t0, tf, [], []⟩

/-- Modelled from the spec: the acceptance rule of `Append` (spec.md section
4.3): the burn must start strictly after the previous burn's nominal end, the
coast leading up to it must reach its initial time without truncation (this is
what rejects a burn placed at or after a singular truncation point, section
4.3's singularity-handling rule), and the computed powered segment must end at
or before `final_time`.  Following `FlightPlanTest.Singular`, a burn whose own
flow is truncated is not thereby rejected: its truncated trajectory is kept. -/
def FlightPlan.appendOk (S : Scenario T) (p : FlightPlan T) (b : Burn T) :
    Prop :=
  p.lastBurnEnd < b.initialTime ∧
  S.reach p.burnList p.coastStart b.initialTime = (b.initialTime, false) ∧
  (S.reach (p.burnList ++ [b]) b.initialTime
      (b.initialTime + (S.massDepletion p.currentMass b).1)).1 ≤ p.finalTime

instance (S : Scenario T) (p : FlightPlan T) (b : Burn T) :
    Decidable (p.appendOk S b) := by
  unfold FlightPlan.appendOk
  infer_instance

/-- The fully committed state after an accepted `Append`: the trailing coast
is replaced by the coast up to the burn, the powered segment (kept truncated
if its flow was truncated), and a recomputed trailing coast; the manœuvre list
gains the derived manœuvre (Tsiolkovsky duration and final mass). -/
def FlightPlan.appendResult (S : Scenario T) (p : FlightPlan T) (b : Burn T) :
    FlightPlan T :=
  FlightPlan.addCoast S
    { p with
      manoeuvres := p.manoeuvres ++
        [⟨b, p.currentMass, (S.massDepletion p.currentMass b).1,
          (S.massDepletion p.currentMass b).2⟩]
      segments := p.segments.dropLast ++
        [⟨p.coastStart, b.initialTime, false⟩,
         ⟨b.initialTime,
          (S.reach (p.burnList ++ [b]) b.initialTime
            (b.initialTime + (S.massDepletion p.currentMass b).1)).1, true⟩] }

/-- Modelled from the spec: `Append(burn)` (spec.md section 4.3) — the
candidate is computed and committed only if the acceptance rule holds;
otherwise the call fails. -/
def FlightPlan.append (S : Scenario T) (p : FlightPlan T) (b : Burn T) :
    Option (FlightPlan T) :=
  if p.appendOk S b then some (p.appendResult S b) else none

/-- The boolean-returning mutating `Append` call of the C++ interface: report success or
failure, and the (unchanged on failure) plan state. -/
def FlightPlan.appendBurn (S : Scenario T) (p : FlightPlan T) (b : Burn T) :
    Bool × FlightPlan T :=
  match p.append S b with
  | some q => (true, q)
  | none => (false, p)

/-- Modelled from the spec: `RemoveLast()` (spec.md section 4.3) — removes
the last [burn, coast] pair and recomputes the trailing coast from the end of
the now-last burn segment (the plan is returned unchanged when there is no
manœuvre, a case the spec leaves to the caller). -/
def FlightPlan.removeLast (S : Scenario T) (p : FlightPlan T) : FlightPlan T :=
  if p.manoeuvres.isEmpty then p
  else
    FlightPlan.addCoast S
      { p with
        manoeuvres := p.manoeuvres.dropLast
        segments := p.segments.dropLast.dropLast.dropLast }

/-- Modelled from the spec: `ReplaceLast(burn)` (spec.md sections 4.3 and 9):
compute-then-swap — the full candidate trailing chain is the result of
appending the new burn to the plan with its last manœuvre removed (so the new
burn is validated against the segment preceding the replaced one, and every
trailing segment is recomputed); only if that candidate is valid does the
plan change. -/
def FlightPlan.replaceLastBurn (S : Scenario T) (p : FlightPlan T)
    (b : Burn T) : Bool × FlightPlan T :=
  if p.manoeuvres.isEmpty then (false, p)
  else
    match (p.removeLast S).append S b with
    | some q => (true, q)
    | none => (false, p)

/-- The recomputation `SetFinalTime` performs on success: the final time is
replaced and the trailing coast re-flowed toward it. -/
def FlightPlan.retime (S : Scenario T) (p : FlightPlan T) (t : T) :
    FlightPlan T :=
  FlightPlan.addCoast S
    { p with finalTime := t, segments := p.segments.dropLast }

/-- Modelled from the spec: `SetFinalTime(t)` (spec.md section 4.3) — fails
if `t` precedes the end of the last committed burn; otherwise recomputes the
trailing coast segment to end at `t`. -/
def FlightPlan.setFinalTime (S : Scenario T) (p : FlightPlan T) (t : T) :
    Bool × FlightPlan T :=
  if p.lastBurnEnd ≤ t then (true, p.retime S t) else (false, p)

/-- The flight plans reachable through the public mutating interface: an
initial plan followed by any sequence of `Append`, `RemoveLast`,
`ReplaceLast` and `SetFinalTime` calls (failed calls leave the state
unchanged, so they are absorbed by the step constructors). -/
inductive Reachable (S : Scenario T) : FlightPlan T → Prop where
  | initial (m0 t0 tf : T) : Reachable S (initialPlan S m0 t0 tf)
  | appendStep {p : FlightPlan T} (b : Burn T) :
      Reachable S p → Reachable S (p.appendBurn S b).2
  | removeStep {p : FlightPlan T} :
      Reachable S p → Reachable S (p.removeLast S)
  | replaceStep {p : FlightPlan T} (b : Burn T) :
      Reachable S p → Reachable S (p.replaceLastBurn S b).2
  | retimeStep {p : FlightPlan T} (t : T) :
      Reachable S p → Reachable S (p.setFinalTime S t).2

/-- Modelled from the spec: the singular-fall scenario family (spec.md
section 8 and `FlightPlanTest.Singular`).  The trajectory determined by the
burns executed so far becomes singular at `singTime bs`; adaptive flow toward
a target before that time reaches it cleanly, flow toward a later target is
truncated at the singularity, and flow starting at or past the singularity
appends nothing. -/
def singularScenario (singTime : List (Burn T) → T)
    (depletion : T → Burn T → T × T) : Scenario T :=
  { reach := fun bs t1 t2 =>
      if t2 < singTime bs then (t2, false)
      else if t1 < singTime bs then (singTime bs, true)
      else (t1, true)
    massDepletion := depletion }

/-- Modelled from the spec: the Flight Plan record written to a message
(spec.md section 6) — `initial_mass`, `initial_time`, `final_time` and the
repeated manœuvre list (each manœuvre is serialised by its burn; the adaptive
step parameters are fixed throughout a `Scenario` and carried by it). -/
structure FlightPlanMessage (T : Type) where
  initialMass : T
  initialTime : T
  finalTime : T
  manoeuvres : List (Burn T)
deriving DecidableEq

/-- Modelled from the spec: `WriteToMessage` — record the plan's header and
its burns. -/
def FlightPlan.writeToMessage (p : FlightPlan T) : FlightPlanMessage T :=
  ⟨p.initialMass, p.initialTime, p.finalTime, p.burnList⟩

/-- Modelled from the spec: `ReadFromMessage` — rebuild the plan by
re-appending every recorded burn, starting from the initial single-coast
plan; fails if any recorded burn is no longer accepted. -/
def readFromMessage (S : Scenario T) (msg : FlightPlanMessage T) :
    Option (FlightPlan T) :=
  msg.manoeuvres.foldlM (fun q b => q.append S b)
    (initialPlan S msg.initialMass msg.initialTime msg.finalTime)

/-- Modelled from the spec: the Tsiolkovsky relation (spec.md section 3): a
depletion rule satisfies it when the duration is
`m0 · Isp / F · (1 − exp(−|Δv| / Isp))` and the final mass is
`m0 · exp(−|Δv| / Isp)`. -/
def tsiolkovskyLaw (depletion : ℝ → Burn ℝ → ℝ × ℝ) : Prop :=
  ∀ (m0 : ℝ) (b : Burn ℝ),
    (depletion m0 b).1 =
      m0 * b.specificImpulse / b.thrust *
        (1 - Real.exp (-|b.Δv| / b.specificImpulse)) ∧
    (depletion m0 b).2 = m0 * Real.exp (-|b.Δv| / b.specificImpulse)

/-- The invariant tying the trailing coast to the rest of the plan: the last
segment is the coast flowed from `coastStart` toward `finalTime` along the
committed burns. -/
def FlightPlan.lastCoastOk (S : Scenario T) (p : FlightPlan T) : Prop :=
  p.segments.getLast? =
    some ⟨p.coastStart, (S.reach p.burnList p.coastStart p.finalTime).1, false⟩

/-- The coast/burn alternation pattern of a plan with `n` manœuvres:
coast, then `n` repetitions of burn-then-coast. -/
def segPattern : ℕ → List Bool
  | 0 => [false]
  | n + 1 => segPattern n ++ [true, false]

/-- The structural invariant on the segment list: its burn flags follow the
alternation pattern for the number of committed manœuvres. -/
def FlightPlan.shapeOk (p : FlightPlan T) : Prop :=
  p.segments.map (fun s => s.isBurn) = segPattern p.manoeuvres.length

theorem FlightPlan.append_of_ok {S : Scenario T} {p : FlightPlan T}
    {b : Burn T} (h : p.appendOk S b) :
    p.append S b = some (p.appendResult S b) := by
  simp [FlightPlan.append, h]

theorem FlightPlan.append_of_not_ok {S : Scenario T} {p : FlightPlan T}
    {b : Burn T} (h : ¬ p.appendOk S b) : p.append S b = none := by
  simp [FlightPlan.append, h]

theorem FlightPlan.append_eq_some_iff {S : Scenario T} {p q : FlightPlan T}
    {b : Burn T} :
    p.append S b = some q ↔ p.appendOk S b ∧ q = p.appendResult S b := by
  by_cases h : p.appendOk S b
  · simp [FlightPlan.append, h, eq_comm]
  · simp [FlightPlan.append, h]

theorem FlightPlan.appendBurn_of_ok {S : Scenario T} {p : FlightPlan T}
    {b : Burn T} (h : p.appendOk S b) :
    p.appendBurn S b = (true, p.appendResult S b) := by
  simp [FlightPlan.appendBurn, FlightPlan.append_of_ok h]

theorem FlightPlan.appendBurn_of_not_ok {S : Scenario T} {p : FlightPlan T}
    {b : Burn T} (h : ¬ p.appendOk S b) : p.appendBurn S b = (false, p) := by
  simp [FlightPlan.appendBurn, FlightPlan.append_of_not_ok h]

theorem FlightPlan.addCoast_manoeuvres (S : Scenario T) (p : FlightPlan T) :
    (p.addCoast S).manoeuvres = p.manoeuvres := rfl

theorem FlightPlan.addCoast_finalTime (S : Scenario T) (p : FlightPlan T) :
    (p.addCoast S).finalTime = p.finalTime := rfl

theorem FlightPlan.appendResult_manoeuvres (S : Scenario T) (p : FlightPlan T)
    (b : Burn T) :
    (p.appendResult S b).manoeuvres =
      p.manoeuvres ++ [⟨b, p.currentMass, (S.massDepletion p.currentMass b).1,
        (S.massDepletion p.currentMass b).2⟩] := rfl

theorem FlightPlan.appendResult_burnList (S : Scenario T) (p : FlightPlan T)
    (b : Burn T) :
    (p.appendResult S b).burnList = p.burnList ++ [b] := by
  simp [FlightPlan.burnList, FlightPlan.appendResult,
    FlightPlan.addCoast_manoeuvres]

theorem FlightPlan.appendResult_lastBurnEnd (S : Scenario T)
    (p : FlightPlan T) (b : Burn T) :
    (p.appendResult S b).lastBurnEnd =
      b.initialTime + (S.massDepletion p.currentMass b).1 := by
  simp [FlightPlan.lastBurnEnd, FlightPlan.appendResult,
    FlightPlan.addCoast_manoeuvres, Manoeuvre.finalTime]

theorem FlightPlan.appendResult_currentMass (S : Scenario T)
    (p : FlightPlan T) (b : Burn T) :
    (p.appendResult S b).currentMass = (S.massDepletion p.currentMass b).2 := by
  simp [FlightPlan.currentMass, FlightPlan.appendResult,
    FlightPlan.addCoast_manoeuvres]

theorem FlightPlan.addCoast_segments (S : Scenario T) (p : FlightPlan T) :
    (p.addCoast S).segments =
      p.segments ++
        [⟨p.lastStop, (S.reach p.burnList p.lastStop p.finalTime).1, false⟩] :=
  rfl

theorem FlightPlan.addCoast_coastStart (S : Scenario T) (p : FlightPlan T) :
    (p.addCoast S).coastStart = p.lastStop := by
  rw [FlightPlan.coastStart, FlightPlan.addCoast_segments, List.dropLast_concat]
  rfl

theorem FlightPlan.addCoast_lastCoastOk (S : Scenario T) (p : FlightPlan T) :
    (p.addCoast S).lastCoastOk S := by
  rw [FlightPlan.lastCoastOk, FlightPlan.addCoast_segments,
    List.getLast?_concat, FlightPlan.addCoast_coastStart]
  rfl

theorem FlightPlan.appendResult_lastCoastOk (S : Scenario T) (p : FlightPlan T)
    (b : Burn T) : (p.appendResult S b).lastCoastOk S :=
  FlightPlan.addCoast_lastCoastOk S _

theorem initialPlan_lastCoastOk (S : Scenario T) (m0 t0 tf : T) :
    (initialPlan S m0 t0 tf).lastCoastOk S :=
  FlightPlan.addCoast_lastCoastOk S _

theorem FlightPlan.appendResult_burnEnd (S : Scenario T) (p : FlightPlan T)
    (b : Burn T) :
    (FlightPlan.addCoast S
      { p with
        manoeuvres := p.manoeuvres ++
          [⟨b, p.currentMass, (S.massDepletion p.currentMass b).1,
            (S.massDepletion p.currentMass b).2⟩]
        segments := p.segments.dropLast ++
          [⟨p.coastStart, b.initialTime, false⟩,
           ⟨b.initialTime,
            (S.reach (p.burnList ++ [b]) b.initialTime
              (b.initialTime + (S.massDepletion p.currentMass b).1)).1,
            true⟩] }).segments =
    (p.segments.dropLast ++
        [⟨p.coastStart, b.initialTime, false⟩,
         ⟨b.initialTime,
          (S.reach (p.burnList ++ [b]) b.initialTime
            (b.initialTime + (S.massDepletion p.currentMass b).1)).1, true⟩]) ++
      [⟨(S.reach (p.burnList ++ [b]) b.initialTime
            (b.initialTime + (S.massDepletion p.currentMass b).1)).1,
        (S.reach (p.burnList ++ [b])
          (S.reach (p.burnList ++ [b]) b.initialTime
            (b.initialTime + (S.massDepletion p.currentMass b).1)).1
          p.finalTime).1, false⟩] := by
  rw [FlightPlan.addCoast_segments]
  have hstop : ({ p with
      manoeuvres := p.manoeuvres ++
        [⟨b, p.currentMass, (S.massDepletion p.currentMass b).1,
          (S.massDepletion p.currentMass b).2⟩]
      segments := p.segments.dropLast ++
        [⟨p.coastStart, b.initialTime, false⟩,
         ⟨b.initialTime,
          (S.reach (p.burnList ++ [b]) b.initialTime
            (b.initialTime + (S.massDepletion p.currentMass b).1)).1, true⟩]
      : FlightPlan T}).lastStop =
      (S.reach (p.burnList ++ [b]) b.initialTime
        (b.initialTime + (S.massDepletion p.currentMass b).1)).1 := by
    rw [FlightPlan.lastStop]
    simp [List.getLast?_append]
  rw [hstop]
  have hbl : ({ p with
      manoeuvres := p.manoeuvres ++
        [⟨b, p.currentMass, (S.massDepletion p.currentMass b).1,
          (S.massDepletion p.currentMass b).2⟩]
      segments := p.segments.dropLast ++
        [⟨p.coastStart, b.initialTime, false⟩,
         ⟨b.initialTime,
          (S.reach (p.burnList ++ [b]) b.initialTime
            (b.initialTime + (S.massDepletion p.currentMass b).1)).1, true⟩]
      : FlightPlan T}).burnList = p.burnList ++ [b] := by
    simp [FlightPlan.burnList]
  rw [hbl]

theorem FlightPlan.appendResult_segments (S : Scenario T) (p : FlightPlan T)
    (b : Burn T) :
    (p.appendResult S b).segments =
      (p.segments.dropLast ++
        [⟨p.coastStart, b.initialTime, false⟩,
         ⟨b.initialTime,
          (S.reach (p.burnList ++ [b]) b.initialTime
            (b.initialTime + (S.massDepletion p.currentMass b).1)).1, true⟩]) ++
      [⟨(S.reach (p.burnList ++ [b]) b.initialTime
            (b.initialTime + (S.massDepletion p.currentMass b).1)).1,
        (S.reach (p.burnList ++ [b])
          (S.reach (p.burnList ++ [b]) b.initialTime
            (b.initialTime + (S.massDepletion p.currentMass b).1)).1
          p.finalTime).1, false⟩] :=
  FlightPlan.appendResult_burnEnd S p b

theorem FlightPlan.dropLast_append_getLast_of_lastCoastOk {S : Scenario T}
    {p : FlightPlan T} (h : p.lastCoastOk S) :
    p.segments.dropLast ++
      [⟨p.coastStart, (S.reach p.burnList p.coastStart p.finalTime).1, false⟩] =
    p.segments := by
  have hne : p.segments ≠ [] := by
    intro hnil
    rw [FlightPlan.lastCoastOk, hnil] at h
    simp at h
  have hgl := List.getLast?_eq_getLast p.segments hne
  rw [FlightPlan.lastCoastOk, hgl, Option.some.injEq] at h
  rw [← h]
  exact List.dropLast_append_getLast hne

/-- Removing the last burn undoes a successful `Append` exactly, given the trailing
coast invariant. -/
theorem FlightPlan.removeLast_appendResult {S : Scenario T} {p : FlightPlan T}
    (b : Burn T) (h : p.lastCoastOk S) :
    (p.appendResult S b).removeLast S = p := by
  have hne : (p.appendResult S b).manoeuvres.isEmpty = false := by
    simp [FlightPlan.appendResult_manoeuvres]
  rw [FlightPlan.removeLast, hne]
  simp only [Bool.false_eq_true, if_false]
  have hrest : (p.appendResult S b).segments.dropLast.dropLast.dropLast =
      p.segments.dropLast := by
    rw [FlightPlan.appendResult_segments, List.dropLast_concat]
    rw [show p.segments.dropLast ++
          [(⟨p.coastStart, b.initialTime, false⟩ : Segment T),
           ⟨b.initialTime,
            (S.reach (p.burnList ++ [b]) b.initialTime
              (b.initialTime + (S.massDepletion p.currentMass b).1)).1, true⟩] =
        (p.segments.dropLast ++ [⟨p.coastStart, b.initialTime, false⟩]) ++
          [⟨b.initialTime,
            (S.reach (p.burnList ++ [b]) b.initialTime
              (b.initialTime + (S.massDepletion p.currentMass b).1)).1, true⟩]
      by simp]
    rw [List.dropLast_concat, List.dropLast_concat]
  have hman : (p.appendResult S b).manoeuvres.dropLast = p.manoeuvres := by
    rw [FlightPlan.appendResult_manoeuvres, List.dropLast_concat]
  rw [FlightPlan.addCoast]
  have hstop : ({ p.appendResult S b with
      manoeuvres := (p.appendResult S b).manoeuvres.dropLast
      segments := (p.appendResult S b).segments.dropLast.dropLast.dropLast
      : FlightPlan T}).lastStop = p.coastStart := by
    rw [FlightPlan.lastStop]
    simp only [hrest]
    rfl
  ext1
  · rfl
  · rfl
  · rfl
  · exact hman
  · simp only [hstop, hrest, hman]
    rw [show ({ p.appendResult S b with
        manoeuvres := p.manoeuvres
        segments := p.segments.dropLast : FlightPlan T}).burnList = p.burnList
      from rfl]
    exact FlightPlan.dropLast_append_getLast_of_lastCoastOk h

theorem FlightPlan.removeLast_lastCoastOk {S : Scenario T} {p : FlightPlan T}
    (h : p.lastCoastOk S) : (p.removeLast S).lastCoastOk S := by
  rw [FlightPlan.removeLast]
  by_cases he : p.manoeuvres.isEmpty
  · rw [if_pos he]
    exact h
  · rw [if_neg he]
    exact FlightPlan.addCoast_lastCoastOk S _

theorem FlightPlan.appendBurn_lastCoastOk {S : Scenario T} {p : FlightPlan T}
    (b : Burn T) (h : p.lastCoastOk S) :
    ((p.appendBurn S b).2).lastCoastOk S := by
  by_cases hok : p.appendOk S b
  · rw [FlightPlan.appendBurn_of_ok hok]
    exact FlightPlan.appendResult_lastCoastOk S p b
  · rw [FlightPlan.appendBurn_of_not_ok hok]
    exact h

theorem FlightPlan.replaceLastBurn_lastCoastOk {S : Scenario T}
    {p : FlightPlan T} (b : Burn T) (h : p.lastCoastOk S) :
    ((p.replaceLastBurn S b).2).lastCoastOk S := by
  rw [FlightPlan.replaceLastBurn]
  by_cases he : p.manoeuvres.isEmpty
  · rw [if_pos he]
    exact h
  · rw [if_neg he]
    by_cases hok : (p.removeLast S).appendOk S b
    · rw [FlightPlan.append_of_ok hok]
      exact FlightPlan.appendResult_lastCoastOk S _ b
    · rw [FlightPlan.append_of_not_ok hok]
      exact h

theorem FlightPlan.setFinalTime_lastCoastOk {S : Scenario T}
    {p : FlightPlan T} (t : T) (h : p.lastCoastOk S) :
    ((p.setFinalTime S t).2).lastCoastOk S := by
  rw [FlightPlan.setFinalTime]
  by_cases hle : p.lastBurnEnd ≤ t
  · rw [if_pos hle]
    exact FlightPlan.addCoast_lastCoastOk S _
  · rw [if_neg hle]
    exact h

/-- Every plan reachable through the public interface carries the trailing
coast invariant. -/
theorem Reachable.lastCoastOk {S : Scenario T} {p : FlightPlan T}
    (h : Reachable S p) : p.lastCoastOk S := by
  induction h with
  | initial m0 t0 tf => exact initialPlan_lastCoastOk S m0 t0 tf
  | appendStep b _ ih => exact FlightPlan.appendBurn_lastCoastOk b ih
  | removeStep _ ih => exact FlightPlan.removeLast_lastCoastOk ih
  | replaceStep b _ ih => exact FlightPlan.replaceLastBurn_lastCoastOk b ih
  | retimeStep t _ ih => exact FlightPlan.setFinalTime_lastCoastOk t ih

theorem segPattern_succ (n : ℕ) :
    segPattern (n + 1) = segPattern n ++ [true, false] := rfl

theorem segPattern_length (n : ℕ) : (segPattern n).length = 2 * n + 1 := by
  induction n with
  | zero => rfl
  | succ n ih =>
    rw [segPattern, List.length_append, ih]
    simp
    ring

theorem segPattern_dropLast_concat (n : ℕ) :
    (segPattern n).dropLast ++ [false] = segPattern n := by
  cases n with
  | zero => rfl
  | succ n =>
    rw [segPattern]
    rw [show segPattern n ++ [true, false] =
        (segPattern n ++ [true]) ++ [false] by simp]
    rw [List.dropLast_concat]

theorem segPattern_getElem (n : ℕ) :
    ∀ i, (h : i < (segPattern n).length) →
      (segPattern n)[i] = decide (i % 2 = 1) := by
  induction n with
  | zero =>
    intro i h
    rw [segPattern_length] at h
    have hi : i = 0 := by omega
    subst hi
    rfl
  | succ n ih =>
    intro i h
    simp only [segPattern_succ] at h ⊢
    by_cases hi : i < (segPattern n).length
    · rw [List.getElem_append_left hi]
      exact ih i hi
    · rw [segPattern_length] at hi
      have h3 : i < 2 * n + 3 := by
        have := h
        rw [List.length_append, segPattern_length] at this
        simpa using this
      have hge : (segPattern n).length ≤ i := by
        rw [segPattern_length]
        omega
      rw [List.getElem_append_right hge]
      rcases Nat.lt_or_ge i (2 * n + 2) with hlt | hge2
      · have h1 : i = 2 * n + 1 := by omega
        have h2 : i - (segPattern n).length = 0 := by
          rw [segPattern_length]
          omega
        have hmod : i % 2 = 1 := by omega
        simp [h2, hmod]
      · have h1 : i = 2 * n + 2 := by omega
        have h2 : i - (segPattern n).length = 1 := by
          rw [segPattern_length]
          omega
        have hmod : i % 2 = 0 := by omega
        simp [h2, hmod]

theorem FlightPlan.addCoast_shape (S : Scenario T) (p : FlightPlan T) :
    (p.addCoast S).segments.map (fun s => s.isBurn) =
      p.segments.map (fun s => s.isBurn) ++ [false] := by
  rw [FlightPlan.addCoast_segments, List.map_append]
  rfl

theorem initialPlan_shapeOk (S : Scenario T) (m0 t0 tf : T) :
    (initialPlan S m0 t0 tf).shapeOk := rfl

theorem FlightPlan.appendResult_shapeOk {S : Scenario T} {p : FlightPlan T}
    (b : Burn T) (h : p.shapeOk) : (p.appendResult S b).shapeOk := by
  rw [FlightPlan.shapeOk] at h ⊢
  rw [FlightPlan.appendResult, FlightPlan.addCoast_shape,
    FlightPlan.addCoast_manoeuvres]
  have hms : ({ p with
      manoeuvres := p.manoeuvres ++
        [⟨b, p.currentMass, (S.massDepletion p.currentMass b).1,
          (S.massDepletion p.currentMass b).2⟩]
      segments := p.segments.dropLast ++
        [⟨p.coastStart, b.initialTime, false⟩,
         ⟨b.initialTime,
          (S.reach (p.burnList ++ [b]) b.initialTime
            (b.initialTime + (S.massDepletion p.currentMass b).1)).1, true⟩]
      : FlightPlan T}).manoeuvres.length = p.manoeuvres.length + 1 := by
    simp
  rw [hms]
  have hseg : ({ p with
      manoeuvres := p.manoeuvres ++
        [⟨b, p.currentMass, (S.massDepletion p.currentMass b).1,
          (S.massDepletion p.currentMass b).2⟩]
      segments := p.segments.dropLast ++
        [⟨p.coastStart, b.initialTime, false⟩,
         ⟨b.initialTime,
          (S.reach (p.burnList ++ [b]) b.initialTime
            (b.initialTime + (S.massDepletion p.currentMass b).1)).1, true⟩]
      : FlightPlan T}).segments.map (fun s => s.isBurn) =
      (p.segments.map fun s => s.isBurn).dropLast ++ [false, true] := by
    rw [show ({ p with
      manoeuvres := p.manoeuvres ++
        [⟨b, p.currentMass, (S.massDepletion p.currentMass b).1,
          (S.massDepletion p.currentMass b).2⟩]
      segments := p.segments.dropLast ++
        [⟨p.coastStart, b.initialTime, false⟩,
         ⟨b.initialTime,
          (S.reach (p.burnList ++ [b]) b.initialTime
            (b.initialTime + (S.massDepletion p.currentMass b).1)).1, true⟩]
      : FlightPlan T}).segments = p.segments.dropLast ++
        [⟨p.coastStart, b.initialTime, false⟩,
         ⟨b.initialTime,
          (S.reach (p.burnList ++ [b]) b.initialTime
            (b.initialTime + (S.massDepletion p.currentMass b).1)).1, true⟩]
      from rfl]
    rw [List.map_append, List.map_dropLast]
    rfl
  rw [hseg, h]
  rw [segPattern_succ, show (segPattern p.manoeuvres.length).dropLast ++
      [false, true] ++ [false] =
      ((segPattern p.manoeuvres.length).dropLast ++ [false]) ++ [true, false]
    by simp]
  rw [segPattern_dropLast_concat]

theorem FlightPlan.removeLast_shapeOk {S : Scenario T} {p : FlightPlan T}
    (h : p.shapeOk) : (p.removeLast S).shapeOk := by
  rw [FlightPlan.removeLast]
  by_cases he : p.manoeuvres.isEmpty
  · rw [if_pos he]
    exact h
  · rw [if_neg he]
    obtain ⟨n, hn⟩ : ∃ n, p.manoeuvres.length = n + 1 := by
      cases hm : p.manoeuvres with
      | nil =>
        rw [hm] at he
        simp at he
      | cons a l => exact ⟨l.length, by simp [hm]⟩
    rw [FlightPlan.shapeOk, FlightPlan.addCoast_shape,
      FlightPlan.addCoast_manoeuvres]
    have hlen : ({p with
        manoeuvres := p.manoeuvres.dropLast
        segments := p.segments.dropLast.dropLast.dropLast
        : FlightPlan T}).manoeuvres.length = n := by
      simp [hn]
    rw [hlen]
    have hseq : ({p with
        manoeuvres := p.manoeuvres.dropLast
        segments := p.segments.dropLast.dropLast.dropLast
        : FlightPlan T}).segments.map (fun s => s.isBurn) =
        (segPattern (n + 1)).dropLast.dropLast.dropLast := by
      rw [show ({p with
          manoeuvres := p.manoeuvres.dropLast
          segments := p.segments.dropLast.dropLast.dropLast
          : FlightPlan T}).segments =
          p.segments.dropLast.dropLast.dropLast from rfl]
      rw [List.map_dropLast, List.map_dropLast, List.map_dropLast]
      rw [FlightPlan.shapeOk] at h
      rw [h, hn]
    rw [hseq]
    rw [segPattern_succ, show segPattern n ++ [true, false] =
        (segPattern n ++ [true]) ++ [false] by simp,
      List.dropLast_concat, List.dropLast_concat]
    exact segPattern_dropLast_concat n

theorem FlightPlan.retime_shapeOk {S : Scenario T} {p : FlightPlan T} {t : T}
    (h : p.shapeOk) : (p.retime S t).shapeOk := by
  rw [FlightPlan.shapeOk, FlightPlan.retime, FlightPlan.addCoast_shape,
    FlightPlan.addCoast_manoeuvres]
  rw [show ({p with
      finalTime := t
      segments := p.segments.dropLast
      : FlightPlan T}).segments = p.segments.dropLast from rfl]
  rw [show ({p with
      finalTime := t
      segments := p.segments.dropLast
      : FlightPlan T}).manoeuvres = p.manoeuvres from rfl]
  rw [List.map_dropLast]
  rw [FlightPlan.shapeOk] at h
  rw [h]
  exact segPattern_dropLast_concat _

theorem FlightPlan.appendBurn_shapeOk {S : Scenario T} {p : FlightPlan T}
    (b : Burn T) (h : p.shapeOk) : ((p.appendBurn S b).2).shapeOk := by
  by_cases hok : p.appendOk S b
  · rw [FlightPlan.appendBurn_of_ok hok]
    exact FlightPlan.appendResult_shapeOk b h
  · rw [FlightPlan.appendBurn_of_not_ok hok]
    exact h

theorem FlightPlan.replaceLastBurn_shapeOk {S : Scenario T} {p : FlightPlan T}
    (b : Burn T) (h : p.shapeOk) : ((p.replaceLastBurn S b).2).shapeOk := by
  rw [FlightPlan.replaceLastBurn]
  by_cases he : p.manoeuvres.isEmpty
  · rw [if_pos he]
    exact h
  · rw [if_neg he]
    by_cases hok : (p.removeLast S).appendOk S b
    · rw [FlightPlan.append_of_ok hok]
      exact FlightPlan.appendResult_shapeOk b (FlightPlan.removeLast_shapeOk h)
    · rw [FlightPlan.append_of_not_ok hok]
      exact h

theorem FlightPlan.setFinalTime_shapeOk {S : Scenario T} {p : FlightPlan T}
    (t : T) (h : p.shapeOk) : ((p.setFinalTime S t).2).shapeOk := by
  rw [FlightPlan.setFinalTime]
  by_cases hle : p.lastBurnEnd ≤ t
  · rw [if_pos hle]
    exact FlightPlan.retime_shapeOk h
  · rw [if_neg hle]
    exact h

/-- Every plan reachable through the public interface satisfies the segment
alternation invariant. -/
theorem Reachable.shapeOk {S : Scenario T} {p : FlightPlan T}
    (h : Reachable S p) : p.shapeOk := by
  induction h with
  | initial m0 t0 tf => exact initialPlan_shapeOk S m0 t0 tf
  | appendStep b _ ih => exact FlightPlan.appendBurn_shapeOk b ih
  | removeStep _ ih => exact FlightPlan.removeLast_shapeOk ih
  | replaceStep b _ ih => exact FlightPlan.replaceLastBurn_shapeOk b ih
  | retimeStep t _ ih => exact FlightPlan.setFinalTime_shapeOk t ih

/-- Replaying a burn list: the plan obtained by re-appending each burn in
order onto a fresh initial plan, as `ReadFromMessage` does. -/
def replay (S : Scenario T) (m0 t0 tf : T) (bs : List (Burn T)) :
    Option (FlightPlan T) :=
  bs.foldlM (fun q b => q.append S b) (initialPlan S m0 t0 tf)

/-- A plan is replayable when re-reading its own message reproduces it
exactly. -/
def Replayable (S : Scenario T) (p : FlightPlan T) : Prop :=
  replay S p.initialMass p.initialTime p.finalTime p.burnList = some p

theorem readFromMessage_writeToMessage (S : Scenario T) (p : FlightPlan T) :
    readFromMessage S p.writeToMessage =
      replay S p.initialMass p.initialTime p.finalTime p.burnList := rfl

theorem replay_concat (S : Scenario T) (m0 t0 tf : T) (bs : List (Burn T))
    (b : Burn T) :
    replay S m0 t0 tf (bs ++ [b]) =
      (replay S m0 t0 tf bs).bind fun q => q.append S b := by
  rw [replay, replay, List.foldlM_append]
  cases bs.foldlM (fun q b => q.append S b) (initialPlan S m0 t0 tf) with
  | none => rfl
  | some q =>
    show (q.append S b).bind (fun r => List.foldlM _ r []) = q.append S b
    cases q.append S b with
    | none => rfl
    | some r => rfl

theorem replay_concat_elim {S : Scenario T} {m0 t0 tf : T}
    {bs : List (Burn T)} {b : Burn T} {p : FlightPlan T}
    (h : replay S m0 t0 tf (bs ++ [b]) = some p) :
    ∃ q, replay S m0 t0 tf bs = some q ∧ q.append S b = some p := by
  rw [replay_concat] at h
  cases hq : replay S m0 t0 tf bs with
  | none =>
    rw [hq] at h
    simp at h
  | some q =>
    rw [hq] at h
    exact ⟨q, rfl, h⟩

theorem replay_lastCoastOk {S : Scenario T} {m0 t0 tf : T} :
    ∀ {bs : List (Burn T)} {p : FlightPlan T},
      replay S m0 t0 tf bs = some p → p.lastCoastOk S := by
  intro bs
  induction bs using List.reverseRecOn with
  | nil =>
    intro p h
    rw [replay] at h
    simp only [List.foldlM_nil, Option.pure_def, Option.some.injEq] at h
    rw [← h]
    exact initialPlan_lastCoastOk S m0 t0 tf
  | append_singleton bs b ih =>
    intro p h
    obtain ⟨q, _, hq⟩ := replay_concat_elim h
    rw [FlightPlan.append_eq_some_iff] at hq
    rw [hq.2]
    exact FlightPlan.appendResult_lastCoastOk S q b

theorem FlightPlan.retime_manoeuvres (S : Scenario T) (p : FlightPlan T)
    (t : T) : (p.retime S t).manoeuvres = p.manoeuvres := rfl

theorem FlightPlan.retime_lastBurnEnd (S : Scenario T) (p : FlightPlan T)
    (t : T) : (p.retime S t).lastBurnEnd = p.lastBurnEnd := rfl

theorem FlightPlan.retime_currentMass (S : Scenario T) (p : FlightPlan T)
    (t : T) : (p.retime S t).currentMass = p.currentMass := rfl

theorem FlightPlan.retime_burnList (S : Scenario T) (p : FlightPlan T)
    (t : T) : (p.retime S t).burnList = p.burnList := rfl

theorem FlightPlan.retime_finalTime (S : Scenario T) (p : FlightPlan T)
    (t : T) : (p.retime S t).finalTime = t := rfl

theorem FlightPlan.retime_coastStart (S : Scenario T) (p : FlightPlan T)
    (t : T) : (p.retime S t).coastStart = p.coastStart := by
  rw [FlightPlan.retime, FlightPlan.addCoast_coastStart]
  rfl

theorem FlightPlan.retime_segments (S : Scenario T) (p : FlightPlan T)
    (t : T) :
    (p.retime S t).segments = p.segments.dropLast ++
      [⟨p.coastStart, (S.reach p.burnList p.coastStart t).1, false⟩] := by
  rw [FlightPlan.retime, FlightPlan.addCoast_segments]
  rfl

theorem FlightPlan.appendResult_coastStart (S : Scenario T) (p : FlightPlan T)
    (b : Burn T) :
    (p.appendResult S b).coastStart =
      (S.reach (p.burnList ++ [b]) b.initialTime
        (b.initialTime + (S.massDepletion p.currentMass b).1)).1 := by
  rw [FlightPlan.coastStart, FlightPlan.appendResult_segments,
    List.dropLast_concat]
  simp [List.getLast?_append]

theorem initialPlan_retime (S : Scenario T) (m0 t0 tf t : T) :
    (initialPlan S m0 t0 tf).retime S t = initialPlan S m0 t0 t := by
  ext1
  · rfl
  · rfl
  · rfl
  · rfl
  · rw [FlightPlan.retime_segments]
    rfl

theorem FlightPlan.retime_appendOk {S : Scenario T} (hS : S.Sane)
    {p : FlightPlan T} {b : Burn T} {t : T} (hok : p.appendOk S b)
    (ht : b.initialTime + (S.massDepletion p.currentMass b).1 ≤ t) :
    (p.retime S t).appendOk S b := by
  obtain ⟨h1, h2, h3⟩ := hok
  refine ⟨?_, ?_, ?_⟩
  · rw [FlightPlan.retime_lastBurnEnd]
    exact h1
  · rw [FlightPlan.retime_burnList, FlightPlan.retime_coastStart]
    exact h2
  · rw [FlightPlan.retime_burnList, FlightPlan.retime_currentMass,
      FlightPlan.retime_finalTime]
    have hd := hS.1 p.currentMass b
    have hr := (hS.2 (p.burnList ++ [b]) b.initialTime
      (b.initialTime + (S.massDepletion p.currentMass b).1)
      (by linarith)).2
    linarith

theorem FlightPlan.retime_appendResult (S : Scenario T) (p : FlightPlan T)
    (b : Burn T) (t : T) :
    (p.retime S t).appendResult S b = (p.appendResult S b).retime S t := by
  have hdrop : (p.retime S t).segments.dropLast = p.segments.dropLast := by
    rw [FlightPlan.retime_segments, List.dropLast_concat]
  have hdrop2 : (p.appendResult S b).segments.dropLast =
      p.segments.dropLast ++
        [⟨p.coastStart, b.initialTime, false⟩,
         ⟨b.initialTime,
          (S.reach (p.burnList ++ [b]) b.initialTime
            (b.initialTime + (S.massDepletion p.currentMass b).1)).1, true⟩] := by
    rw [FlightPlan.appendResult_segments, List.dropLast_concat]
  ext1
  · rfl
  · rfl
  · rfl
  · rw [FlightPlan.retime_manoeuvres, FlightPlan.appendResult_manoeuvres,
      FlightPlan.appendResult_manoeuvres, FlightPlan.retime_manoeuvres,
      FlightPlan.retime_currentMass]
  · rw [FlightPlan.appendResult_segments, FlightPlan.retime_segments]
    rw [FlightPlan.retime_coastStart, FlightPlan.retime_burnList,
      FlightPlan.retime_currentMass, FlightPlan.retime_finalTime]
    rw [List.dropLast_concat]
    rw [FlightPlan.retime_segments]
    rw [FlightPlan.appendResult_coastStart, FlightPlan.appendResult_burnList,
      hdrop2]

/-- A replayed plan replays identically under a final time that does not
precede its last burn's nominal end: only the trailing coast and the recorded
final time change. -/
theorem replay_retime {S : Scenario T} (hS : S.Sane) {m0 t0 tf : T} :
    ∀ {bs : List (Burn T)} {p : FlightPlan T} {t : T},
      replay S m0 t0 tf bs = some p → p.lastBurnEnd ≤ t →
      replay S m0 t0 t bs = some (p.retime S t) := by
  intro bs
  induction bs using List.reverseRecOn with
  | nil =>
    intro p t h ht
    rw [replay] at h
    simp only [List.foldlM_nil, Option.pure_def, Option.some.injEq] at h
    rw [← h, initialPlan_retime]
    rfl
  | append_singleton bs b ih =>
    intro p t h ht
    obtain ⟨q, hq, happ⟩ := replay_concat_elim h
    rw [FlightPlan.append_eq_some_iff] at happ
    obtain ⟨hok, hp⟩ := happ
    have hple : b.initialTime + (S.massDepletion q.currentMass b).1 ≤ t := by
      have he : p.lastBurnEnd =
          b.initialTime + (S.massDepletion q.currentMass b).1 := by
        rw [hp, FlightPlan.appendResult_lastBurnEnd]
      rw [he] at ht
      exact ht
    have hqle : q.lastBurnEnd ≤ t := by
      have hd := hS.1 q.currentMass b
      have h1 := hok.1
      linarith
    have hbs := ih hq hqle
    rw [replay_concat, hbs]
    simp only [Option.some_bind]
    rw [FlightPlan.append_of_ok (FlightPlan.retime_appendOk hS hok hple)]
    rw [FlightPlan.retime_appendResult, ← hp]

theorem Replayable.initial (S : Scenario T) (m0 t0 tf : T) :
    Replayable S (initialPlan S m0 t0 tf) := rfl

theorem Replayable.appendResult {S : Scenario T} {p : FlightPlan T}
    {b : Burn T} (h : Replayable S p) (hok : p.appendOk S b) :
    Replayable S (p.appendResult S b) := by
  rw [Replayable] at h ⊢
  rw [show (p.appendResult S b).initialMass = p.initialMass from rfl,
    show (p.appendResult S b).initialTime = p.initialTime from rfl,
    show (p.appendResult S b).finalTime = p.finalTime from rfl,
    FlightPlan.appendResult_burnList]
  rw [replay_concat, h]
  simp only [Option.some_bind]
  exact FlightPlan.append_of_ok hok

theorem Replayable.appendBurn {S : Scenario T} {p : FlightPlan T}
    (b : Burn T) (h : Replayable S p) :
    Replayable S ((p.appendBurn S b).2) := by
  by_cases hok : p.appendOk S b
  · rw [FlightPlan.appendBurn_of_ok hok]
    exact Replayable.appendResult h hok
  · rw [FlightPlan.appendBurn_of_not_ok hok]
    exact h

theorem Replayable.removeLast {S : Scenario T} {p : FlightPlan T}
    (h : Replayable S p) : Replayable S (p.removeLast S) := by
  by_cases he : p.manoeuvres.isEmpty
  · rw [FlightPlan.removeLast, if_pos he]
    exact h
  · have hbl : p.burnList ≠ [] := by
      rw [FlightPlan.burnList]
      cases hm : p.manoeuvres with
      | nil =>
        rw [hm] at he
        simp at he
      | cons a l => simp [hm]
    obtain ⟨bs, b, hsplit⟩ := (List.eq_nil_or_concat p.burnList).resolve_left hbl
    rw [List.concat_eq_append] at hsplit
    have h' : replay S p.initialMass p.initialTime p.finalTime (bs ++ [b]) =
        some p := by
      rw [← hsplit]
      exact h
    obtain ⟨q, hq, happ⟩ := replay_concat_elim h'
    rw [FlightPlan.append_eq_some_iff] at happ
    obtain ⟨hok, hp⟩ := happ
    have hrm : p.removeLast S = q := by
      rw [hp]
      exact FlightPlan.removeLast_appendResult b (replay_lastCoastOk hq)
    rw [hrm]
    have hqbl : q.burnList = bs := by
      have : p.burnList = q.burnList ++ [b] := by
        rw [hp, FlightPlan.appendResult_burnList]
      rw [this] at hsplit
      exact List.append_cancel_right hsplit
    rw [Replayable,
      show q.initialMass = p.initialMass by rw [hp]; rfl,
      show q.initialTime = p.initialTime by rw [hp]; rfl,
      show q.finalTime = p.finalTime by rw [hp]; rfl,
      hqbl]
    exact hq

theorem Replayable.replaceLastBurn {S : Scenario T} {p : FlightPlan T}
    (b : Burn T) (h : Replayable S p) :
    Replayable S ((p.replaceLastBurn S b).2) := by
  rw [FlightPlan.replaceLastBurn]
  by_cases he : p.manoeuvres.isEmpty
  · rw [if_pos he]
    exact h
  · rw [if_neg he]
    by_cases hok : (p.removeLast S).appendOk S b
    · rw [FlightPlan.append_of_ok hok]
      exact Replayable.appendResult (Replayable.removeLast h) hok
    · rw [FlightPlan.append_of_not_ok hok]
      exact h

theorem Replayable.setFinalTime {S : Scenario T} (hS : S.Sane)
    {p : FlightPlan T} (t : T) (h : Replayable S p) :
    Replayable S ((p.setFinalTime S t).2) := by
  rw [FlightPlan.setFinalTime]
  by_cases hle : p.lastBurnEnd ≤ t
  · rw [if_pos hle]
    rw [Replayable,
      show (p.retime S t).initialMass = p.initialMass from rfl,
      show (p.retime S t).initialTime = p.initialTime from rfl,
      FlightPlan.retime_finalTime, FlightPlan.retime_burnList]
    exact replay_retime hS h hle
  · rw [if_neg hle]
    exact h

/-- Every reachable plan of a sane scenario replays exactly from its own
message. -/
theorem Reachable.replayable {S : Scenario T} (hS : S.Sane)
    {p : FlightPlan T} (h : Reachable S p) : Replayable S p := by
  induction h with
  | initial m0 t0 tf => exact Replayable.initial S m0 t0 tf
  | appendStep b _ ih => exact Replayable.appendBurn b ih
  | removeStep _ ih => exact Replayable.removeLast ih
  | replaceStep b _ ih => exact Replayable.replaceLastBurn b ih
  | retimeStep t _ ih => exact Replayable.setFinalTime hS t ih

/-- A scenario whose flow always reaches its target (no singularity): used to
exhibit concrete plans. -/
def pureScenario (depl : T → Burn T → T × T) : Scenario T :=
  ⟨fun _ _ t2 => (t2, false), depl⟩

/-- Concrete benign scenario over ℚ: every burn lasts one second and consumes
one mass unit. -/
def qScenario : Scenario ℚ := pureScenario fun m _ => (1, m - 1)

theorem qScenario_sane : qScenario.Sane := by
  constructor
  · intro m0 b
    norm_num [qScenario, pureScenario]
  · intro bs t1 t2 h
    exact ⟨h, le_refl t2⟩

def qBurn1 : Burn ℚ := ⟨1, 1, 1, 1⟩

def qBurn2 : Burn ℚ := ⟨1, 1, 3, 1⟩

def qPlan0 : FlightPlan ℚ := initialPlan qScenario 10 0 100

def qPlan1 : FlightPlan ℚ := (qPlan0.appendBurn qScenario qBurn1).2

def qPlan2 : FlightPlan ℚ := (qPlan1.appendBurn qScenario qBurn2).2

/-- Singularity schedule of the ℚ singular-fall fixture: the unboosted fall
is singular at time 3; a trajectory boosted toward the singularity (positive
Δv) is singular already at time 1; one boosted away is singular only at 10. -/
def fallSingTime : List (Burn ℚ) → ℚ := fun bs =>
  if bs.isEmpty then 3
  else if bs.any fun b => decide (0 < b.Δv) then 1 else 10

def fallDepletion : ℚ → Burn ℚ → ℚ × ℚ := fun m _ => (1, m - 1)

def fallScenario : Scenario ℚ := singularScenario fallSingTime fallDepletion

def fallPlan0 : FlightPlan ℚ := initialPlan fallScenario 1 0 103

def towardBurn : Burn ℚ := ⟨1, 1, 1/2, 1⟩

def awayBurn : Burn ℚ := ⟨10, 1, 1/2, -1⟩

def lateBurn : Burn ℚ := ⟨1, 1, 4, 1⟩

def fallPlan1 : FlightPlan ℚ := (fallPlan0.appendBurn fallScenario towardBurn).2

theorem qPlan0_appendOk : qPlan0.appendOk qScenario qBurn1 := by
  refine ⟨?_, rfl, ?_⟩
  · show (0 : ℚ) < 1
    norm_num
  · show (1 : ℚ) + 1 ≤ 100
    norm_num

theorem qPlan1_eq : qPlan1 = qPlan0.appendResult qScenario qBurn1 := by
  rw [qPlan1, FlightPlan.appendBurn_of_ok qPlan0_appendOk]

theorem qPlan1_appendOk : qPlan1.appendOk qScenario qBurn2 := by
  rw [qPlan1_eq]
  refine ⟨?_, rfl, ?_⟩
  · rw [FlightPlan.appendResult_lastBurnEnd]
    show (1 : ℚ) + 1 < 3
    norm_num
  · show (3 : ℚ) + 1 ≤ 100
    norm_num

theorem qPlan2_eq : qPlan2 = qPlan1.appendResult qScenario qBurn2 := by
  rw [qPlan2, FlightPlan.appendBurn_of_ok qPlan1_appendOk]

theorem FlightPlan.appendResult_segments_length (S : Scenario T)
    (p : FlightPlan T) (b : Burn T) :
    (p.appendResult S b).segments.length = p.segments.length - 1 + 3 := by
  rw [FlightPlan.appendResult_segments]
  simp [List.length_dropLast]

theorem FlightPlan.removeLast_manoeuvres (S : Scenario T) (p : FlightPlan T)
    (h : p.manoeuvres.isEmpty = false) :
    (p.removeLast S).manoeuvres = p.manoeuvres.dropLast := by
  rw [FlightPlan.removeLast, if_neg (by rw [h]; exact Bool.false_ne_true)]
  rfl

theorem FlightPlan.removeLast_segments_length (S : Scenario T)
    (p : FlightPlan T) (h : p.manoeuvres.isEmpty = false) :
    (p.removeLast S).segments.length = p.segments.length - 3 + 1 := by
  rw [FlightPlan.removeLast, if_neg (by rw [h]; exact Bool.false_ne_true)]
  rw [FlightPlan.addCoast_segments]
  simp [List.length_dropLast]
  omega

theorem FlightPlan.addCoast_lastStop (S : Scenario T) (p : FlightPlan T) :
    (p.addCoast S).lastStop = (S.reach p.burnList p.lastStop p.finalTime).1 := by
  rw [FlightPlan.lastStop, FlightPlan.addCoast_segments, List.getLast?_concat]

end KSP

/-- C9: the claim states that binary subtraction of multivectors is the
componentwise difference, with (x + y) − y = x and x − x = 0.  The code is
wrong: `operator-` in Grassmann-body.hpp (lines 64-69) returns
`left.coordinates + left.coordinates`.  At x = (1,0,0), y = (0,1,0) over ℤ,
x − y evaluates to (2,0,0) instead of (1,-1,0), (x + y) − y ≠ x, and
x − x ≠ 0 — while the compound `operator-=` (lines 114-118) does subtract
componentwise, confirming the claim captures the intent. -/
theorem claim_C9_sub_code_bug :
    (Geometry.Multivector.sub
        (⟨⟨1, 0, 0⟩⟩ : Geometry.Multivector ℤ Unit 1) ⟨⟨0, 1, 0⟩⟩ =
      ⟨⟨2, 0, 0⟩⟩) ∧
    (Geometry.Multivector.sub
        (⟨⟨1, 0, 0⟩⟩ : Geometry.Multivector ℤ Unit 1) ⟨⟨0, 1, 0⟩⟩ ≠
      ⟨⟨1, -1, 0⟩⟩) ∧
    (Geometry.Multivector.sub
        (Geometry.Multivector.add
          (⟨⟨1, 0, 0⟩⟩ : Geometry.Multivector ℤ Unit 1) ⟨⟨0, 1, 0⟩⟩)
        ⟨⟨0, 1, 0⟩⟩ ≠ ⟨⟨1, 0, 0⟩⟩) ∧
    (Geometry.Multivector.sub
        (⟨⟨1, 0, 0⟩⟩ : Geometry.Multivector ℤ Unit 1) ⟨⟨1, 0, 0⟩⟩ ≠
      ⟨⟨0, 0, 0⟩⟩) ∧
    (Geometry.Multivector.subAssign
        (⟨⟨1, 0, 0⟩⟩ : Geometry.Multivector ℤ Unit 1) ⟨⟨0, 1, 0⟩⟩ =
      ⟨⟨1, -1, 0⟩⟩) := by
  refine ⟨rfl, ?_, ?_, ?_, rfl⟩ <;> decide

namespace KSP

variable {T : Type} [LinearOrderedField T]

/-- C7: every reachable flight plan has `number_of_segments` equal to
2·`number_of_manœuvres` + 1, with segments alternating coast at even indices
and burn at odd indices; in particular a plan with one accepted burn has 3
segments and one with two accepted burns has 5. -/
theorem claim_C7_segment_structure {S : Scenario T} {p : FlightPlan T}
    (h : Reachable S p) :
    p.segments.length = 2 * p.manoeuvres.length + 1 ∧
    (∀ i, (hi : i < p.segments.length) →
      p.segments[i].isBurn = decide (i % 2 = 1)) ∧
    (p.manoeuvres.length = 1 → p.segments.length = 3) ∧
    (p.manoeuvres.length = 2 → p.segments.length = 5) := by
  have hs := h.shapeOk
  rw [FlightPlan.shapeOk] at hs
  have hlen : p.segments.length = 2 * p.manoeuvres.length + 1 := by
    have hl := congrArg List.length hs
    rw [List.length_map, segPattern_length] at hl
    exact hl
  refine ⟨hlen, ?_, ?_, ?_⟩
  · intro i hi
    have hi2 : i < (p.segments.map fun s => s.isBurn).length := by
      rw [List.length_map]
      exact hi
    have hmap := List.getElem_of_eq hs hi2
    rw [List.getElem_map] at hmap
    rw [hmap]
    exact segPattern_getElem _ i _
  · intro h1
    rw [hlen, h1]
  · intro h2
    rw [hlen, h2]

/-- Witness for C7 at the concrete rational fixture: the plan obtained by two
accepted appends is reachable and exhibits 5 segments, the odd ones burns. -/
theorem claim_C7_witness :
    qPlan2.segments.length = 2 * qPlan2.manoeuvres.length + 1 :=
  (claim_C7_segment_structure
    (Reachable.appendStep qBurn2 (Reachable.appendStep qBurn1
      (Reachable.initial 10 0 100)))).1

theorem FlightPlan.replaceLastBurn_of_ok {S : Scenario T} {p : FlightPlan T}
    {b : Burn T} (hne : p.manoeuvres.isEmpty = false)
    (hok : (p.removeLast S).appendOk S b) :
    p.replaceLastBurn S b = (true, (p.removeLast S).appendResult S b) := by
  rw [FlightPlan.replaceLastBurn,
    if_neg (by rw [hne]; exact Bool.false_ne_true),
    FlightPlan.append_of_ok hok]

theorem FlightPlan.replaceLastBurn_of_not_ok {S : Scenario T}
    {p : FlightPlan T} {b : Burn T} (hne : p.manoeuvres.isEmpty = false)
    (hnok : ¬ (p.removeLast S).appendOk S b) :
    p.replaceLastBurn S b = (false, p) := by
  rw [FlightPlan.replaceLastBurn,
    if_neg (by rw [hne]; exact Bool.false_ne_true),
    FlightPlan.append_of_not_ok hnok]

/-- C5: RemoveLast is the exact inverse of the immediately preceding
successful Append: the whole plan state returns to its pre-Append value, so
`number_of_manœuvres`, `number_of_segments` and the plan's mass are restored,
and any burn appendable before remains appendable afterwards. -/
theorem claim_C5_removeLast_inverse {S : Scenario T} {p q : FlightPlan T}
    {b : Burn T} (hreach : Reachable S p)
    (happ : p.appendBurn S b = (true, q)) :
    q.removeLast S = p ∧
    (q.removeLast S).manoeuvres.length = p.manoeuvres.length ∧
    (q.removeLast S).segments.length = p.segments.length ∧
    (q.removeLast S).currentMass = p.currentMass := by
  have hok : p.appendOk S b := by
    by_cases hok : p.appendOk S b
    · exact hok
    · rw [FlightPlan.appendBurn_of_not_ok hok] at happ
      have := congrArg Prod.fst happ
      simp at this
  rw [FlightPlan.appendBurn_of_ok hok] at happ
  have hq : p.appendResult S b = q := congrArg Prod.snd happ
  have hinv : q.removeLast S = p := by
    rw [← hq]
    exact FlightPlan.removeLast_appendResult b hreach.lastCoastOk
  rw [hinv]
  exact ⟨rfl, rfl, rfl, rfl⟩

/-- Witness for C5: removing the burn just appended to the initial rational
fixture plan restores that plan exactly, with its counts and mass. -/
theorem claim_C5_witness :
    qPlan1.removeLast qScenario = qPlan0 ∧
    (qPlan1.removeLast qScenario).manoeuvres.length =
      qPlan0.manoeuvres.length ∧
    (qPlan1.removeLast qScenario).segments.length =
      qPlan0.segments.length ∧
    (qPlan1.removeLast qScenario).currentMass = qPlan0.currentMass :=
  claim_C5_removeLast_inverse (Reachable.initial 10 0 100)
    (by rw [FlightPlan.appendBurn_of_ok qPlan0_appendOk, qPlan1_eq])

/-- C4: the Append acceptance contract: a burn is accepted only if it starts
strictly after the previous burn's nominal end and its computed powered
segment ends at or before `final_time`; acceptance appends a [burn, coast]
segment pair and one manœuvre; rejection reports failure and leaves the plan
unchanged; in particular a burn whose computed segment ends strictly after
`final_time` is rejected, as is a burn sharing the previous burn's initial
time. -/
theorem claim_C4_append_contract (S : Scenario T) (p : FlightPlan T)
    (b : Burn T) (hseg : p.segments ≠ []) :
    ((p.appendBurn S b).1 = true →
      p.lastBurnEnd < b.initialTime ∧
      (S.reach (p.burnList ++ [b]) b.initialTime
        (b.initialTime + (S.massDepletion p.currentMass b).1)).1 ≤
        p.finalTime ∧
      (p.appendBurn S b).2.manoeuvres.length = p.manoeuvres.length + 1 ∧
      (p.appendBurn S b).2.segments.length = p.segments.length + 2 ∧
      ((p.appendBurn S b).2.segments.getLast?.map fun s => s.isBurn) =
        some false ∧
      ((p.appendBurn S b).2.segments.dropLast.getLast?.map fun s => s.isBurn) =
        some true) ∧
    ((p.appendBurn S b).1 = false → (p.appendBurn S b).2 = p) ∧
    (p.finalTime < (S.reach (p.burnList ++ [b]) b.initialTime
        (b.initialTime + (S.massDepletion p.currentMass b).1)).1 →
      (p.appendBurn S b).1 = false ∧ (p.appendBurn S b).2 = p) ∧
    (∀ m, p.manoeuvres.getLast? = some m → 0 ≤ m.duration →
      b.initialTime = m.burn.initialTime →
      (p.appendBurn S b).1 = false ∧ (p.appendBurn S b).2 = p) := by
  by_cases hok : p.appendOk S b
  · rw [FlightPlan.appendBurn_of_ok hok]
    refine ⟨?_, ?_, ?_, ?_⟩
    · intro _
      refine ⟨hok.1, hok.2.2, ?_, ?_, ?_, ?_⟩
      · rw [FlightPlan.appendResult_manoeuvres]
        simp
      · rw [FlightPlan.appendResult_segments_length]
        have hpos : 0 < p.segments.length := List.length_pos.2 hseg
        omega
      · rw [FlightPlan.appendResult_segments, List.getLast?_concat]
        rfl
      · rw [FlightPlan.appendResult_segments, List.dropLast_concat]
        rw [show p.segments.dropLast ++
            [(⟨p.coastStart, b.initialTime, false⟩ : Segment T),
             ⟨b.initialTime,
              (S.reach (p.burnList ++ [b]) b.initialTime
                (b.initialTime +
                  (S.massDepletion p.currentMass b).1)).1, true⟩] =
          (p.segments.dropLast ++ [⟨p.coastStart, b.initialTime, false⟩]) ++
            [⟨b.initialTime,
              (S.reach (p.burnList ++ [b]) b.initialTime
                (b.initialTime +
                  (S.massDepletion p.currentMass b).1)).1, true⟩] by simp]
        rw [List.getLast?_concat]
        rfl
    · intro hfalse
      simp at hfalse
    · intro hlt
      exact absurd hok.2.2 (not_le.2 hlt)
    · intro m hm hd heq
      exfalso
      have h1 := hok.1
      simp only [FlightPlan.lastBurnEnd, hm] at h1
      rw [Manoeuvre.finalTime, heq] at h1
      linarith
  · rw [FlightPlan.appendBurn_of_not_ok hok]
    refine ⟨?_, fun _ => rfl, fun _ => ⟨rfl, rfl⟩,
      fun m hm hd heq => ⟨rfl, rfl⟩⟩
    intro htrue
    simp at htrue

/-- Witness for C4: appending the first fixture burn increments the manœuvre
count and adds a burn/coast segment pair. -/
theorem claim_C4_witness :
    (qPlan0.appendBurn qScenario qBurn1).2.manoeuvres.length =
      qPlan0.manoeuvres.length + 1 ∧
    (qPlan0.appendBurn qScenario qBurn1).2.segments.length =
      qPlan0.segments.length + 2 ∧
    ((qPlan0.appendBurn qScenario qBurn1).2.segments.getLast?.map
      fun s => s.isBurn) = some false := by
  have hseg : qPlan0.segments ≠ [] := by
    rw [qPlan0, initialPlan, FlightPlan.addCoast_segments]
    simp
  have h := (claim_C4_append_contract qScenario qPlan0 qBurn1 hseg).1
    (by rw [FlightPlan.appendBurn_of_ok qPlan0_appendOk])
  exact ⟨h.2.2.1, h.2.2.2.1, h.2.2.2.2.1⟩

/-- C1: ReplaceLast is atomic: when the candidate for the new burn is valid
the plan becomes exactly the full recomputation (last manœuvre replaced by
the new burn, every trailing segment recomputed, final mass updated, counts
preserved); when it is invalid the call reports failure and the plan — in
particular `number_of_manœuvres`, `number_of_segments` and the final mass of
the last manœuvre — is exactly what it was. -/
theorem claim_C1_replaceLast_atomic {S : Scenario T} (p : FlightPlan T)
    (b : Burn T) (hne : p.manoeuvres ≠ [])
    (hlen : p.segments.length = 2 * p.manoeuvres.length + 1) :
    ((p.replaceLastBurn S b).1 = true →
      (p.replaceLastBurn S b).2 = (p.removeLast S).appendResult S b ∧
      (p.replaceLastBurn S b).2.manoeuvres.length = p.manoeuvres.length ∧
      (p.replaceLastBurn S b).2.segments.length = p.segments.length ∧
      ((p.replaceLastBurn S b).2.manoeuvres.getLast?.map fun m => m.burn) =
        some b ∧
      (p.replaceLastBurn S b).2.currentMass =
        (S.massDepletion (p.removeLast S).currentMass b).2 ∧
      (p.replaceLastBurn S b).2.lastCoastOk S) ∧
    ((p.replaceLastBurn S b).1 = false →
      (p.replaceLastBurn S b).2 = p ∧
      (p.replaceLastBurn S b).2.manoeuvres.length = p.manoeuvres.length ∧
      (p.replaceLastBurn S b).2.segments.length = p.segments.length ∧
      (p.replaceLastBurn S b).2.currentMass = p.currentMass) := by
  have hie : p.manoeuvres.isEmpty = false := by
    cases hm : p.manoeuvres with
    | nil => exact absurd hm hne
    | cons a l => rfl
  have hlpos : p.manoeuvres.length ≠ 0 := by
    simpa [List.length_eq_zero] using hne
  by_cases hok : (p.removeLast S).appendOk S b
  · rw [FlightPlan.replaceLastBurn_of_ok hie hok]
    refine ⟨?_, ?_⟩
    · intro _
      refine ⟨rfl, ?_, ?_, ?_, ?_, ?_⟩
      · rw [FlightPlan.appendResult_manoeuvres,
          FlightPlan.removeLast_manoeuvres S p hie]
        simp
        omega
      · rw [FlightPlan.appendResult_segments_length,
          FlightPlan.removeLast_segments_length S p hie, hlen]
        omega
      · rw [FlightPlan.appendResult_manoeuvres, List.getLast?_concat]
        rfl
      · exact FlightPlan.appendResult_currentMass S _ b
      · exact FlightPlan.appendResult_lastCoastOk S _ b
    · intro hfalse
      simp at hfalse
  · rw [FlightPlan.replaceLastBurn_of_not_ok hie hok]
    refine ⟨?_, fun _ => ⟨rfl, rfl, rfl, rfl⟩⟩
    intro htrue
    simp at htrue

/-- Witness for C1 at the rational fixture: replacing the only burn of the
one-burn plan with a later burn succeeds and preserves the manœuvre and
segment counts while installing the new burn. -/
theorem claim_C1_witness :
    (qPlan1.replaceLastBurn qScenario qBurn2).1 = true ∧
    (qPlan1.replaceLastBurn qScenario qBurn2).2.manoeuvres.length =
      qPlan1.manoeuvres.length ∧
    (qPlan1.replaceLastBurn qScenario qBurn2).2.segments.length =
      qPlan1.segments.length ∧
    ((qPlan1.replaceLastBurn qScenario qBurn2).2.manoeuvres.getLast?.map
      fun m => m.burn) = some qBurn2 := by
  have hne : qPlan1.manoeuvres ≠ [] := by
    rw [qPlan1_eq, FlightPlan.appendResult_manoeuvres]
    simp
  have hie : qPlan1.manoeuvres.isEmpty = false := by
    cases hm : qPlan1.manoeuvres with
    | nil => exact absurd hm hne
    | cons a l => rfl
  have hlen : qPlan1.segments.length = 2 * qPlan1.manoeuvres.length + 1 := by
    rw [qPlan1_eq, FlightPlan.appendResult_segments_length,
      FlightPlan.appendResult_manoeuvres]
    rw [show qPlan0.segments.length = 1 by
      rw [qPlan0, initialPlan, FlightPlan.addCoast_segments]
      simp]
    rw [show qPlan0.manoeuvres = [] from rfl]
    simp
  have hrm : qPlan1.removeLast qScenario = qPlan0 := by
    rw [qPlan1_eq]
    exact FlightPlan.removeLast_appendResult qBurn1
      (initialPlan_lastCoastOk qScenario 10 0 100)
  have hok : (qPlan1.removeLast qScenario).appendOk qScenario qBurn2 := by
    rw [hrm]
    refine ⟨?_, rfl, ?_⟩
    · show (0 : ℚ) < 3
      norm_num
    · show (3 : ℚ) + 1 ≤ 100
      norm_num
  have htrue : (qPlan1.replaceLastBurn qScenario qBurn2).1 = true := by
    rw [FlightPlan.replaceLastBurn_of_ok hie hok]
  have hc := (claim_C1_replaceLast_atomic (S := qScenario) qPlan1 qBurn2 hne
    hlen).1 htrue
  exact ⟨htrue, hc.2.1, hc.2.2.1, hc.2.2.2.1⟩

/-- C3: writing a reachable flight plan of a sane scenario to a message and
reading the message back reproduces the plan exactly — in particular its
`number_of_manœuvres`, `number_of_segments`, `initial_time`, `final_time`,
and every segment's sampled span. -/
theorem claim_C3_round_trip {S : Scenario T} (hS : S.Sane) {p : FlightPlan T}
    (h : Reachable S p) :
    readFromMessage S p.writeToMessage = some p ∧
    (∀ q, readFromMessage S p.writeToMessage = some q →
      q.manoeuvres.length = p.manoeuvres.length ∧
      q.segments.length = p.segments.length ∧
      q.initialTime = p.initialTime ∧
      q.finalTime = p.finalTime ∧
      q.segments = p.segments) := by
  have hr : readFromMessage S p.writeToMessage = some p :=
    Reachable.replayable hS h
  refine ⟨hr, ?_⟩
  intro q hq
  rw [hr, Option.some.injEq] at hq
  rw [← hq]
  exact ⟨rfl, rfl, rfl, rfl, rfl⟩

/-- Witness for C3: the two-burn rational fixture plan reads back from its
own message unchanged. -/
theorem claim_C3_witness :
    readFromMessage qScenario qPlan2.writeToMessage = some qPlan2 :=
  (claim_C3_round_trip qScenario_sane
    (Reachable.appendStep qBurn2 (Reachable.appendStep qBurn1
      (Reachable.initial 10 0 100)))).1

/-- In a singular-fall scenario a burn starting at or after the singularity
of the trajectory it must coast along cannot satisfy the Append acceptance
rule: the pre-burn coast is truncated before the burn's initial time. -/
theorem FlightPlan.singular_append_not_ok {singTime : List (Burn T) → T}
    {depl : T → Burn T → T × T} (q : FlightPlan T) (b : Burn T)
    (hq : singTime q.burnList ≤ b.initialTime) :
    ¬ q.appendOk (singularScenario singTime depl) b := by
  intro hok
  have h2 := hok.2.1
  simp only [singularScenario] at h2
  rw [if_neg (not_lt.2 hq)] at h2
  by_cases hcs : q.coastStart < singTime q.burnList
  · rw [if_pos hcs] at h2
    simp at h2
  · rw [if_neg hcs] at h2
    simp at h2

/-- In a singular-fall scenario a burn whose flow is truncated during the
burn (the singularity of the boosted trajectory falls between the burn's
start and its nominal end) is accepted whenever it starts after the last
burn, before the coasting trajectory's singularity, and the truncation point
is within the final time; the powered segment is kept truncated and the
trailing coast is the degenerate single point. -/
theorem FlightPlan.singular_append_truncated
    {singTime : List (Burn T) → T} {depl : T → Burn T → T × T}
    (p : FlightPlan T) (b : Burn T)
    (h1 : p.lastBurnEnd < b.initialTime)
    (h2 : b.initialTime < singTime p.burnList)
    (h3 : b.initialTime < singTime (p.burnList ++ [b]))
    (h4 : singTime (p.burnList ++ [b]) ≤ b.initialTime +
      ((singularScenario singTime depl).massDepletion p.currentMass b).1)
    (h5 : singTime (p.burnList ++ [b]) ≤ p.finalTime) :
    (p.appendBurn (singularScenario singTime depl) b).1 = true ∧
    (p.appendBurn (singularScenario singTime depl)
        b).2.segments.getLast? =
      some ⟨singTime (p.burnList ++ [b]), singTime (p.burnList ++ [b]),
        false⟩ ∧
    (p.appendBurn (singularScenario singTime depl)
        b).2.segments.dropLast.getLast? =
      some ⟨b.initialTime, singTime (p.burnList ++ [b]), true⟩ := by
  have hreach1 : (singularScenario singTime depl).reach p.burnList
      p.coastStart b.initialTime = (b.initialTime, false) := by
    simp only [singularScenario]
    rw [if_pos h2]
  have hreach2 : (singularScenario singTime depl).reach (p.burnList ++ [b])
      b.initialTime (b.initialTime +
        ((singularScenario singTime depl).massDepletion p.currentMass b).1) =
      (singTime (p.burnList ++ [b]), true) := by
    have h4' : singTime (p.burnList ++ [b]) ≤ b.initialTime +
        (depl p.currentMass b).1 := h4
    simp only [singularScenario]
    rw [if_neg (not_lt.2 h4'), if_pos h3]
  have hreach3 : (singularScenario singTime depl).reach (p.burnList ++ [b])
      (singTime (p.burnList ++ [b])) p.finalTime =
      (singTime (p.burnList ++ [b]), true) := by
    simp only [singularScenario]
    rw [if_neg (not_lt.2 h5), if_neg (lt_irrefl _)]
  have hok : p.appendOk (singularScenario singTime depl) b := by
    refine ⟨h1, hreach1, ?_⟩
    rw [hreach2]
    exact h5
  rw [FlightPlan.appendBurn_of_ok hok]
  refine ⟨rfl, ?_, ?_⟩
  · rw [FlightPlan.appendResult_segments, List.getLast?_concat, hreach2]
    rw [show ((singTime (p.burnList ++ [b]), true) : T × Bool).1 =
      singTime (p.burnList ++ [b]) from rfl]
    rw [hreach3]
  · rw [FlightPlan.appendResult_segments, List.dropLast_concat]
    rw [show p.segments.dropLast ++
        [(⟨p.coastStart, b.initialTime, false⟩ : Segment T),
         ⟨b.initialTime,
          ((singularScenario singTime depl).reach (p.burnList ++ [b])
            b.initialTime (b.initialTime +
              ((singularScenario singTime depl).massDepletion
                p.currentMass b).1)).1, true⟩] =
      (p.segments.dropLast ++ [⟨p.coastStart, b.initialTime, false⟩]) ++
        [⟨b.initialTime,
          ((singularScenario singTime depl).reach (p.burnList ++ [b])
            b.initialTime (b.initialTime +
              ((singularScenario singTime depl).massDepletion
                p.currentMass b).1)).1, true⟩] by simp]
    rw [List.getLast?_concat, hreach2]

/-- In a singular-fall scenario a burn whose entire nominal span precedes the
singularity of the boosted trajectory is accepted (under the ordering, clean
pre-burn coast, and final-time conditions); the powered segment ends exactly
at its nominal Tsiolkovsky end and the trailing coast extends to the final
time or the boosted trajectory's singularity, whichever comes first. -/
theorem FlightPlan.singular_append_clean
    {singTime : List (Burn T) → T} {depl : T → Burn T → T × T}
    (p : FlightPlan T) (b : Burn T)
    (h1 : p.lastBurnEnd < b.initialTime)
    (h2 : b.initialTime < singTime p.burnList)
    (h3 : b.initialTime +
      ((singularScenario singTime depl).massDepletion p.currentMass b).1 <
      singTime (p.burnList ++ [b]))
    (h4 : b.initialTime +
      ((singularScenario singTime depl).massDepletion p.currentMass b).1 ≤
      p.finalTime) :
    (p.appendBurn (singularScenario singTime depl) b).1 = true ∧
    (p.appendBurn (singularScenario singTime depl)
        b).2.segments.dropLast.getLast? =
      some ⟨b.initialTime, b.initialTime +
        ((singularScenario singTime depl).massDepletion p.currentMass b).1,
        true⟩ ∧
    (p.appendBurn (singularScenario singTime depl)
        b).2.segments.getLast? =
      some ⟨b.initialTime +
          ((singularScenario singTime depl).massDepletion p.currentMass b).1,
        if p.finalTime < singTime (p.burnList ++ [b]) then p.finalTime
        else singTime (p.burnList ++ [b]), false⟩ := by
  have hreach1 : (singularScenario singTime depl).reach p.burnList
      p.coastStart b.initialTime = (b.initialTime, false) := by
    simp only [singularScenario]
    rw [if_pos h2]
  have h3' : b.initialTime + (depl p.currentMass b).1 <
      singTime (p.burnList ++ [b]) := h3
  have hreach2 : (singularScenario singTime depl).reach (p.burnList ++ [b])
      b.initialTime (b.initialTime +
        ((singularScenario singTime depl).massDepletion p.currentMass b).1) =
      (b.initialTime +
        ((singularScenario singTime depl).massDepletion p.currentMass b).1,
       false) := by
    simp only [singularScenario]
    rw [if_pos h3']
  have hok : p.appendOk (singularScenario singTime depl) b := by
    refine ⟨h1, hreach1, ?_⟩
    rw [hreach2]
    exact h4
  rw [FlightPlan.appendBurn_of_ok hok]
  refine ⟨rfl, ?_, ?_⟩
  · rw [FlightPlan.appendResult_segments, List.dropLast_concat]
    rw [show p.segments.dropLast ++
        [(⟨p.coastStart, b.initialTime, false⟩ : Segment T),
         ⟨b.initialTime,
          ((singularScenario singTime depl).reach (p.burnList ++ [b])
            b.initialTime (b.initialTime +
              ((singularScenario singTime depl).massDepletion
                p.currentMass b).1)).1, true⟩] =
      (p.segments.dropLast ++ [⟨p.coastStart, b.initialTime, false⟩]) ++
        [⟨b.initialTime,
          ((singularScenario singTime depl).reach (p.burnList ++ [b])
            b.initialTime (b.initialTime +
              ((singularScenario singTime depl).massDepletion
                p.currentMass b).1)).1, true⟩] by simp]
    rw [List.getLast?_concat, hreach2]
  · rw [FlightPlan.appendResult_segments, List.getLast?_concat, hreach2]
    rw [show ((b.initialTime +
        ((singularScenario singTime depl).massDepletion p.currentMass b).1,
        false) : T × Bool).1 = b.initialTime +
        ((singularScenario singTime depl).massDepletion p.currentMass b).1
      from rfl]
    have hcoast : (singularScenario singTime depl).reach (p.burnList ++ [b])
        (b.initialTime +
          ((singularScenario singTime depl).massDepletion p.currentMass b).1)
        p.finalTime =
        (if p.finalTime < singTime (p.burnList ++ [b]) then
          (p.finalTime, false)
        else (singTime (p.burnList ++ [b]), true)) := by
      simp only [singularScenario]
      by_cases hf : p.finalTime < singTime (p.burnList ++ [b])
      · rw [if_pos hf, if_pos hf]
      · rw [if_neg hf, if_neg hf, if_pos h3']
    rw [hcoast]
    by_cases hf : p.finalTime < singTime (p.burnList ++ [b])
    · rw [if_pos hf, if_pos hf]
    · rw [if_neg hf, if_neg hf]

/-- C6: under the singular-fall scenario family the truncated trajectory is
kept — the initial plan's single coast extends exactly to the singularity of
the unburned trajectory — and any subsequent Append or ReplaceLast whose burn
would start at or after the singularity of the trajectory it must coast
along fails, with the same observable rejection as a burn ending after
`final_time`: a false return with the plan unchanged. -/
theorem claim_C6_truncation (singTime : List (Burn T) → T)
    (depl : T → Burn T → T × T) (p : FlightPlan T) (b : Burn T)
    (m0 t0 tf : T) :
    (singTime p.burnList ≤ b.initialTime →
      p.appendBurn (singularScenario singTime depl) b = (false, p)) ∧
    (p.manoeuvres ≠ [] →
      singTime ((p.removeLast (singularScenario singTime depl)).burnList) ≤
        b.initialTime →
      p.replaceLastBurn (singularScenario singTime depl) b = (false, p)) ∧
    (t0 < singTime [] → singTime [] ≤ tf →
      (initialPlan (singularScenario singTime depl) m0 t0 tf).segments =
        [⟨t0, singTime [], false⟩]) := by
  refine ⟨?_, ?_, ?_⟩
  · intro hb
    exact FlightPlan.appendBurn_of_not_ok
      (FlightPlan.singular_append_not_ok p b hb)
  · intro hne hb
    have hie : p.manoeuvres.isEmpty = false := by
      cases hm : p.manoeuvres with
      | nil => exact absurd hm hne
      | cons a l => rfl
    exact FlightPlan.replaceLastBurn_of_not_ok hie
      (FlightPlan.singular_append_not_ok _ b hb)
  · intro h1 h2
    rw [initialPlan, FlightPlan.addCoast_segments]
    rw [show (⟨m0, t0, tf, [], []⟩ : FlightPlan T).lastStop = t0 from rfl,
      show (⟨m0, t0, tf, [], []⟩ : FlightPlan T).burnList = [] from rfl,
      show (⟨m0, t0, tf, [], []⟩ : FlightPlan T).finalTime = tf from rfl]
    simp only [singularScenario]
    rw [if_neg (not_lt.2 h2), if_pos h1]
    simp

/-- Witness for C6: in the rational fall fixture the initial coast is kept
truncated at the singularity (time 3) and a burn placed past it (at time 4)
is rejected with the plan unchanged. -/
theorem claim_C6_witness :
    fallPlan0.appendBurn fallScenario lateBurn = (false, fallPlan0) ∧
    fallPlan0.segments = [⟨0, 3, false⟩] := by
  have h := claim_C6_truncation fallSingTime fallDepletion fallPlan0 lateBurn
    1 0 103
  refine ⟨h.1 ?_, ?_⟩
  · show (3 : ℚ) ≤ 4
    norm_num
  · exact h.2.2 (by norm_num : (0 : ℚ) < 3) (by norm_num : (3 : ℚ) ≤ 103)

/-- C10: when an accepted burn's adaptive flow is truncated at a singularity
before the burn's nominal end, the truncated powered segment is kept and the
coast segment that follows it is degenerate: its span is the single
truncation point, so it holds exactly one sample and its begin sample equals
its last sample. -/
theorem claim_C10_degenerate_coast (singTime : List (Burn T) → T)
    (depl : T → Burn T → T × T) (p : FlightPlan T) (b : Burn T)
    (h1 : p.lastBurnEnd < b.initialTime)
    (h2 : b.initialTime < singTime p.burnList)
    (h3 : b.initialTime < singTime (p.burnList ++ [b]))
    (h4 : singTime (p.burnList ++ [b]) ≤ b.initialTime +
      ((singularScenario singTime depl).massDepletion p.currentMass b).1)
    (h5 : singTime (p.burnList ++ [b]) ≤ p.finalTime) :
    (p.appendBurn (singularScenario singTime depl) b).1 = true ∧
    (p.appendBurn (singularScenario singTime depl)
        b).2.segments.getLast? =
      some ⟨singTime (p.burnList ++ [b]), singTime (p.burnList ++ [b]),
        false⟩ ∧
    (p.appendBurn (singularScenario singTime depl)
        b).2.segments.dropLast.getLast? =
      some ⟨b.initialTime, singTime (p.burnList ++ [b]), true⟩ :=
  FlightPlan.singular_append_truncated p b h1 h2 h3 h4 h5

/-- Witness for C10: in the rational fall fixture, the burn toward the
singularity (nominal end 3/2, truncated at 1) is accepted, its powered
segment ends at the truncation point 1, and the following coast is the
degenerate single-sample segment at 1. -/
theorem claim_C10_witness :
    (fallPlan0.appendBurn fallScenario towardBurn).1 = true ∧
    (fallPlan0.appendBurn fallScenario towardBurn).2.segments.getLast? =
      some ⟨1, 1, false⟩ ∧
    (fallPlan0.appendBurn fallScenario
      towardBurn).2.segments.dropLast.getLast? = some ⟨1/2, 1, true⟩ := by
  have h := claim_C10_degenerate_coast fallSingTime fallDepletion fallPlan0
    towardBurn
    (by show (0 : ℚ) < 1/2; norm_num)
    (by show (1 : ℚ)/2 < 3; norm_num)
    (by show (1 : ℚ)/2 < 1; norm_num)
    (by show (1 : ℚ) ≤ 1/2 + 1; norm_num)
    (by show (1 : ℚ) ≤ 103; norm_num)
  exact h

/-- C2 as stated is falsified by the repository's own test: in the
singular-fall fixture the burn `towardBurn` accelerates toward the
singularity (positive Δv), starts before the fall's singularity, and its
computed trajectory crosses the boosted trajectory's singularity before the
burn's nominal end — the situation the claim says `Append` rejects — yet
`Append` accepts it, exactly as `FlightPlanTest.Singular` expects
(`EXPECT_TRUE` at lines 155-160), keeping the truncated powered segment. -/
theorem claim_C2_counterexample :
    0 < towardBurn.Δv ∧
    towardBurn.initialTime < fallSingTime fallPlan0.burnList ∧
    fallSingTime (fallPlan0.burnList ++ [towardBurn]) ≤
      towardBurn.initialTime +
        (fallScenario.massDepletion fallPlan0.currentMass towardBurn).1 ∧
    fallSingTime (fallPlan0.burnList ++ [towardBurn]) <
      fallSingTime fallPlan0.burnList ∧
    (fallPlan0.appendBurn fallScenario towardBurn).1 = true := by
  refine ⟨?_, ?_, ?_, ?_, ?_⟩
  · show (0 : ℚ) < 1
    norm_num
  · show (1 : ℚ)/2 < 3
    norm_num
  · show (1 : ℚ) ≤ 1/2 + 1
    norm_num
  · show (1 : ℚ) < 3
    norm_num
  · exact (FlightPlan.singular_append_truncated fallPlan0 towardBurn
      (by show (0 : ℚ) < 1/2; norm_num)
      (by show (1 : ℚ)/2 < 3; norm_num)
      (by show (1 : ℚ)/2 < 1; norm_num)
      (by show (1 : ℚ) ≤ 1/2 + 1; norm_num)
      (by show (1 : ℚ) ≤ 103; norm_num)).1

/-- C2 amended: in the singular-fall scenario, Append rejects a burn placed
at or past the singularity truncating the trajectory it must coast along; a
burn accelerating toward the singularity whose flow is truncated during the
burn is accepted, its powered segment ending at the truncation point —
strictly before the unboosted singularity — with the following coast
degenerate; and the same nominal Δv applied in the opposite sense (no
singularity during the burn) is accepted, its powered segment ends at its
nominal Tsiolkovsky end, and the coast segment following it ends strictly
after the unboosted singularity. -/
theorem claim_C2_amended (singTime : List (Burn T) → T)
    (depl : T → Burn T → T × T) (p : FlightPlan T) (b bAway : Burn T) :
    (singTime p.burnList ≤ b.initialTime →
      p.appendBurn (singularScenario singTime depl) b = (false, p)) ∧
    (p.lastBurnEnd < b.initialTime →
      b.initialTime < singTime p.burnList →
      b.initialTime < singTime (p.burnList ++ [b]) →
      singTime (p.burnList ++ [b]) ≤ b.initialTime +
        ((singularScenario singTime depl).massDepletion p.currentMass b).1 →
      singTime (p.burnList ++ [b]) ≤ p.finalTime →
      singTime (p.burnList ++ [b]) < singTime p.burnList →
      (p.appendBurn (singularScenario singTime depl) b).1 = true ∧
      (p.appendBurn (singularScenario singTime depl)
          b).2.segments.dropLast.getLast? =
        some ⟨b.initialTime, singTime (p.burnList ++ [b]), true⟩ ∧
      singTime (p.burnList ++ [b]) < singTime p.burnList ∧
      (p.appendBurn (singularScenario singTime depl)
          b).2.segments.getLast? =
        some ⟨singTime (p.burnList ++ [b]), singTime (p.burnList ++ [b]),
          false⟩) ∧
    (p.lastBurnEnd < bAway.initialTime →
      bAway.initialTime < singTime p.burnList →
      bAway.initialTime + ((singularScenario singTime depl).massDepletion
        p.currentMass bAway).1 < singTime (p.burnList ++ [bAway]) →
      bAway.initialTime + ((singularScenario singTime depl).massDepletion
        p.currentMass bAway).1 ≤ p.finalTime →
      singTime p.burnList < singTime (p.burnList ++ [bAway]) →
      singTime p.burnList < p.finalTime →
      (p.appendBurn (singularScenario singTime depl) bAway).1 = true ∧
      (p.appendBurn (singularScenario singTime depl)
          bAway).2.segments.dropLast.getLast? =
        some ⟨bAway.initialTime, bAway.initialTime +
          ((singularScenario singTime depl).massDepletion p.currentMass
            bAway).1, true⟩ ∧
      singTime p.burnList <
        (p.appendBurn (singularScenario singTime depl) bAway).2.lastStop) := by
  refine ⟨?_, ?_, ?_⟩
  · intro hb
    exact FlightPlan.appendBurn_of_not_ok
      (FlightPlan.singular_append_not_ok p b hb)
  · intro h1 h2 h3 h4 h5 h6
    have h := FlightPlan.singular_append_truncated p b h1 h2 h3 h4 h5
    exact ⟨h.1, h.2.2, h6, h.2.1⟩
  · intro h1 h2 h3 h4 h5 h6
    have h := FlightPlan.singular_append_clean p bAway h1 h2 h3 h4
    refine ⟨h.1, h.2.1, ?_⟩
    have hlast := h.2.2
    rw [FlightPlan.lastStop, hlast]
    by_cases hf : p.finalTime < singTime (p.burnList ++ [bAway])
    · rw [if_pos hf]
      exact h6
    · rw [if_neg hf]
      exact h5

/-- Witness for the amended C2, at the rational fall fixture: the burn away
from the singularity is accepted, its powered segment ends at its nominal
end 3/2, and the coast after it passes the unboosted singularity at 3. -/
theorem claim_C2_witness :
    (fallPlan0.appendBurn fallScenario awayBurn).1 = true ∧
    (fallPlan0.appendBurn fallScenario
        awayBurn).2.segments.dropLast.getLast? =
      some ⟨awayBurn.initialTime, awayBurn.initialTime +
        (fallScenario.massDepletion fallPlan0.currentMass awayBurn).1,
        true⟩ ∧
    fallSingTime fallPlan0.burnList <
      (fallPlan0.appendBurn fallScenario awayBurn).2.lastStop :=
  (claim_C2_amended fallSingTime fallDepletion fallPlan0 towardBurn
    awayBurn).2.2
    (by show (0 : ℚ) < 1/2; norm_num)
    (by show (1 : ℚ)/2 < 3; norm_num)
    (by show (1 : ℚ)/2 + 1 < 10; norm_num)
    (by show (1 : ℚ)/2 + 1 ≤ 103; norm_num)
    (by show (3 : ℚ) < 10; norm_num)
    (by show (3 : ℚ) < 103; norm_num)

/-- C8: an accepted burn's derived duration follows the exponential
Tsiolkovsky mass depletion, `duration = m0·Isp/F · (1 − e^(−Δv/Isp))` for Δv
the magnitude of the frame-relative velocity change, so an accepted
untruncated powered segment ends exactly that long after its initial time;
with F = 10 N, Isp = 1 N·s/kg, |Δv| = 1 m/s and m0 = 1 kg the segment ends
exactly (1 − 1/e)/10 s after ignition, as `FlightPlanTest.Singular` checks at
line 187. -/
theorem claim_C8_tsiolkovsky {S : Scenario ℝ}
    (hlaw : tsiolkovskyLaw S.massDepletion) (p : FlightPlan ℝ) (b : Burn ℝ)
    (h1 : p.lastBurnEnd < b.initialTime)
    (h2 : S.reach p.burnList p.coastStart b.initialTime =
      (b.initialTime, false))
    (h3 : S.reach (p.burnList ++ [b]) b.initialTime
      (b.initialTime + (S.massDepletion p.currentMass b).1) =
      (b.initialTime + (S.massDepletion p.currentMass b).1, false))
    (h4 : b.initialTime + (S.massDepletion p.currentMass b).1 ≤ p.finalTime) :
    (p.appendBurn S b).1 = true ∧
    (S.massDepletion p.currentMass b).1 =
      p.currentMass * b.specificImpulse / b.thrust *
        (1 - Real.exp (-|b.Δv| / b.specificImpulse)) ∧
    (p.appendBurn S b).2.segments.dropLast.getLast? =
      some ⟨b.initialTime, b.initialTime +
        p.currentMass * b.specificImpulse / b.thrust *
          (1 - Real.exp (-|b.Δv| / b.specificImpulse)), true⟩ ∧
    (b.thrust = 10 → b.specificImpulse = 1 → b.Δv = -1 → p.currentMass = 1 →
      (p.appendBurn S b).2.segments.dropLast.getLast? =
        some ⟨b.initialTime,
          b.initialTime + (1 - Real.exp (-1)) / 10, true⟩) := by
  have hok : p.appendOk S b := ⟨h1, h2, by rw [h3]; exact h4⟩
  rw [FlightPlan.appendBurn_of_ok hok]
  have hd := (hlaw p.currentMass b).1
  have hseg : (p.appendResult S b).segments.dropLast.getLast? =
      some ⟨b.initialTime,
        b.initialTime + (S.massDepletion p.currentMass b).1, true⟩ := by
    rw [FlightPlan.appendResult_segments, List.dropLast_concat]
    rw [show p.segments.dropLast ++
        [(⟨p.coastStart, b.initialTime, false⟩ : Segment ℝ),
         ⟨b.initialTime,
          (S.reach (p.burnList ++ [b]) b.initialTime
            (b.initialTime + (S.massDepletion p.currentMass b).1)).1,
          true⟩] =
      (p.segments.dropLast ++ [⟨p.coastStart, b.initialTime, false⟩]) ++
        [⟨b.initialTime,
          (S.reach (p.burnList ++ [b]) b.initialTime
            (b.initialTime + (S.massDepletion p.currentMass b).1)).1,
          true⟩] by simp]
    rw [List.getLast?_concat, h3]
  refine ⟨rfl, hd, ?_, ?_⟩
  · rw [hseg, hd]
  · intro hF hI hv hm
    rw [hseg, hd, hF, hI, hv, hm]
    have hval : (1 : ℝ) * 1 / 10 * (1 - Real.exp (-|(-1 : ℝ)| / 1)) =
        (1 - Real.exp (-1)) / 10 := by
      rw [show |(-1 : ℝ)| = 1 by norm_num,
        show (-(1 : ℝ)) / 1 = -1 by norm_num]
      ring
    rw [hval]

/-- Witness for C8: under a scenario whose mass depletion is literally the
Tsiolkovsky relation and whose flow never truncates, appending the
10-newton, Isp 1, Δv −1 burn at t = 1 to a 1-kilogram plan produces a
powered segment ending exactly at 1 + (1 − 1/e)/10. -/
theorem claim_C8_witness :
    ((initialPlan (pureScenario fun m0 (b : Burn ℝ) =>
          (m0 * b.specificImpulse / b.thrust *
            (1 - Real.exp (-|b.Δv| / b.specificImpulse)),
           m0 * Real.exp (-|b.Δv| / b.specificImpulse))) 1 0 100).appendBurn
        (pureScenario fun m0 (b : Burn ℝ) =>
          (m0 * b.specificImpulse / b.thrust *
            (1 - Real.exp (-|b.Δv| / b.specificImpulse)),
           m0 * Real.exp (-|b.Δv| / b.specificImpulse)))
        ⟨10, 1, 1, -1⟩).2.segments.dropLast.getLast? =
      some ⟨1, 1 + (1 - Real.exp (-1)) / 10, true⟩ := by
  have hlaw : tsiolkovskyLaw fun m0 (b : Burn ℝ) =>
      (m0 * b.specificImpulse / b.thrust *
        (1 - Real.exp (-|b.Δv| / b.specificImpulse)),
       m0 * Real.exp (-|b.Δv| / b.specificImpulse)) :=
    fun m0 b => ⟨rfl, rfl⟩
  have h := claim_C8_tsiolkovsky (S := pureScenario fun m0 (b : Burn ℝ) =>
      (m0 * b.specificImpulse / b.thrust *
        (1 - Real.exp (-|b.Δv| / b.specificImpulse)),
       m0 * Real.exp (-|b.Δv| / b.specificImpulse))) hlaw
    (initialPlan (pureScenario fun m0 (b : Burn ℝ) =>
      (m0 * b.specificImpulse / b.thrust *
        (1 - Real.exp (-|b.Δv| / b.specificImpulse)),
       m0 * Real.exp (-|b.Δv| / b.specificImpulse))) 1 0 100)
    ⟨10, 1, 1, -1⟩
    (by show (0 : ℝ) < 1; norm_num)
    rfl
    rfl
    (by
      show (1 : ℝ) + 1 * 1 / 10 * (1 - Real.exp (-|(-1 : ℝ)| / 1)) ≤ 100
      have hE := Real.exp_pos (-|(-1 : ℝ)| / 1)
      nlinarith)
  exact h.2.2.2 rfl rfl rfl rfl

end KSP

end Principia
